import Mathlib

/-!
Verification of the setup-utpm GitHub action (`src/index.ts`).

The development shallowly embeds the program: the node-semver library calls
used by the action (`semver.valid`, `semver.maxSatisfying`) are modelled from
that library's documented semantics (strict parsing, semver precedence, range
satisfaction with the default prerelease-exclusion rule); the action's own
functions (`listReleases`, `getExactVersion`, `downloadAndCacheUtpm`, `run`)
are translated directly, with all external effects (network, filesystem,
tool cache) supplied by an explicit environment and recorded in an event log.
-/

namespace SetupUtpm

/-- Maximum safe integer of JS (2^53 - 1); node-semver rejects larger
numeric components. -/
def maxSafeInt : Nat := 9007199254740991

/-- A prerelease identifier: numeric identifiers compare numerically and are
lower than alphanumeric ones (node-semver keeps all-digit identifiers at or
above 2^53 - 1 as strings). -/
inductive PreId where
  | num (n : Nat)
  | str (s : String)
deriving DecidableEq, Repr

/-- A parsed semantic version, as produced by the node-semver `SemVer`
constructor; build metadata is kept for validity but ignored by precedence. -/
structure SemVer where
  major : Nat
  minor : Nat
  patch : Nat
  prerelease : List PreId
  build : List String
deriving DecidableEq, Repr

/-- Splits a character list at the first occurrence of `c`; `none` if `c`
does not occur. -/
def splitFirst (c : Char) : List Char → Option (List Char × List Char)
  | [] => none
  | x :: xs =>
    if x = c then some ([], xs)
    else match splitFirst c xs with
      | some (l, r) => some (x :: l, r)
      | none => none

/-- Splits a character list at every occurrence of `c` (like JS
`String.prototype.split` on a single character: always nonempty result). -/
def splitAll (c : Char) : List Char → List (List Char)
  | [] => [[]]
  | x :: xs =>
    let r := splitAll c xs
    if x = c then [] :: r
    else match r with
      | h :: t => (x :: h) :: t
      | [] => [[x]]

/-- Parses a numeric component per the node-semver `NUMERICIDENTIFIER`
grammar (`0|[1-9][0-9]*`) with the constructor's safe-integer bound. -/
def parseNumId (cs : List Char) : Option Nat :=
  if cs = [] then none
  else if cs.all Char.isDigit then
    if cs.length > 1 ∧ cs.head? = some '0' then none
    else
      let n := cs.foldl (fun acc c => acc * 10 + c.toNat - 48) 0
      if n ≤ maxSafeInt then some n else none
  else none

/-- Characters allowed in prerelease and build identifiers:
`[0-9A-Za-z-]`. -/
def isIdChar (c : Char) : Bool :=
  c.isDigit || c.isAlpha || c = '-'

/-- Parses one prerelease identifier: a no-leading-zero numeric identifier
(converted to a number when below 2^53 - 1, as the node-semver constructor
does) or an alphanumeric identifier containing a non-digit. -/
def parsePreId (cs : List Char) : Option PreId :=
  if cs = [] then none
  else if cs.all Char.isDigit then
    if cs.length > 1 ∧ cs.head? = some '0' then none
    else
      let n := cs.foldl (fun acc c => acc * 10 + c.toNat - 48) 0
      if n < maxSafeInt then some (.num n) else some (.str ⟨cs⟩)
  else if cs.all isIdChar then some (.str ⟨cs⟩)
  else none

/-- Parses one build identifier: nonempty over `[0-9A-Za-z-]`. -/
def parseBuildId (cs : List Char) : Option String :=
  if cs ≠ [] ∧ cs.all isIdChar then some ⟨cs⟩ else none

/-- Maps an optional parse over the dot-split components. -/
def parseDotted {α : Type} (p : List Char → Option α) (cs : List Char) :
    Option (List α) :=
  (splitAll '.' cs).mapM p

/-- Parses `major.minor.patch` (exactly three numeric components). -/
def parseMMP (cs : List Char) : Option (Nat × Nat × Nat) :=
  match splitAll '.' cs with
  | [a, b, c] =>
    match parseNumId a, parseNumId b, parseNumId c with
    | some ma, some mi, some pa => some (ma, mi, pa)
    | _, _, _ => none
  | _ => none

/-- Parses the part before build metadata: `major.minor.patch` with an
optional `-prerelease` suffix (the first `-` after the patch separates). -/
def parseMain (cs : List Char) : Option (Nat × Nat × Nat × List PreId) :=
  match splitFirst '-' cs with
  | some (mmp, pre) =>
    match parseMMP mmp, parseDotted parsePreId pre with
    | some (ma, mi, pa), some ids =>
      if ids = [] then none else some (ma, mi, pa, ids)
    | _, _ => none
  | none =>
    match parseMMP cs with
    | some (ma, mi, pa) => some (ma, mi, pa, [])
    | none => none

/-- Parses a trimmed version string body: optional leading `v`, then
`main`, then optional `+build`. -/
def parseSemverCore (cs : List Char) : Option SemVer :=
  let cs := match cs with
    | 'v' :: t => t
    | other => other
  match splitFirst '+' cs with
  | some (main, bld) =>
    match parseMain main, parseDotted parseBuildId bld with
    | some (ma, mi, pa, pre), some b =>
      if b = [] then none else some ⟨ma, mi, pa, pre, b⟩
    | _, _ => none
  | none =>
    match parseMain cs with
    | some (ma, mi, pa, pre) => some ⟨ma, mi, pa, pre, []⟩
    | none => none

/-- Strips leading and trailing whitespace, as JS `String.prototype.trim`
does on the ASCII whitespace the grammar can meet. -/
def trimChars (cs : List Char) : List Char :=
  ((cs.dropWhile Char.isWhitespace).reverse.dropWhile
    Char.isWhitespace).reverse

/-- Models node-semver `parse`/`valid` with default (strict) options: a
length cap of 256, surrounding whitespace trimmed, optional leading `v`.
Returns the parsed version, so `Option.isSome` of it models truthiness of
`semver.valid`. -/
def parseSemver (s : String) : Option SemVer :=
  if s.length > 256 then none
  else parseSemverCore (trimChars s.data)

/-- Compares two prerelease identifiers per semver precedence (numeric
before alphanumeric; JS code-unit string order on ASCII identifiers). -/
def comparePreId : PreId → PreId → Ordering
  | .num a, .num b => compare a b
  | .num _, .str _ => .lt
  | .str _, .num _ => .gt
  | .str a, .str b => if a < b then .lt else if b < a then .gt else .eq

/-- Compares prerelease identifier lists element-wise once both are known
to be nonempty: running out of identifiers first means lower precedence
(`1.0.0-alpha < 1.0.0-alpha.1`). -/
def comparePreRest : List PreId → List PreId → Ordering
  | [], [] => .eq
  | [], _ :: _ => .lt
  | _ :: _, [] => .gt
  | a :: as, b :: bs =>
    match comparePreId a b with
    | .eq => comparePreRest as bs
    | o => o

/-- Compares prerelease lists per semver precedence: a version without a
prerelease has higher precedence than any prerelease of the same tuple;
two prereleases compare element-wise. -/
def comparePre (a b : List PreId) : Ordering :=
  match a, b with
  | [], [] => .eq
  | [], _ :: _ => .gt
  | _ :: _, [] => .lt
  | _ :: _, _ :: _ => comparePreRest a b

/-- Semver precedence (`SemVer.prototype.compare`): major, minor, patch,
then prerelease, each fall-through mirroring the `||` chaining of
node-semver `compareMain`/`comparePre`; build metadata ignored. -/
def compareSemver (a b : SemVer) : Ordering :=
  (compare a.major b.major).then ((compare a.minor b.minor).then
    ((compare a.patch b.patch).then (comparePre a.prerelease b.prerelease)))

/-- Comparator operators of a range. -/
inductive CompOp where
  | eqOp | ltOp | leOp | gtOp | geOp
deriving DecidableEq, Repr

/-- A single comparator of a range set. -/
structure Comparator where
  op : CompOp
  ver : SemVer
deriving DecidableEq, Repr

/-- A range: a disjunction of comparator sets; the empty set matches
everything except prereleases (node-semver `*`). -/
def Range : Type := List (List Comparator)

/-- Tests an ordering outcome against a comparator operator. -/
def opTest : CompOp → Ordering → Bool
  | .eqOp, o => o = .eq
  | .ltOp, o => o = .lt
  | .leOp, o => o ≠ .gt
  | .gtOp, o => o = .gt
  | .geOp, o => o ≠ .lt

/-- Tests a version against one comparator. -/
def testComparator (v : SemVer) (c : Comparator) : Bool :=
  opTest c.op (compareSemver v c.ver)

/-- Tests a version against a comparator set, with node-semver's default
prerelease rule: a prerelease version only matches a set that contains a
comparator with a prerelease on the same `[major, minor, patch]` tuple. -/
def testSet (v : SemVer) (cs : List Comparator) : Bool :=
  cs.all (testComparator v) &&
    (v.prerelease.isEmpty ||
      cs.any (fun c =>
        !c.ver.prerelease.isEmpty &&
          c.ver.major = v.major && c.ver.minor = v.minor &&
          c.ver.patch = v.patch))

/-- Tests a version against a range (disjunction of sets). -/
def testRange (v : SemVer) (r : Range) : Bool :=
  r.any (testSet v)

/-- An x-range version component: a numeric component or a wildcard (`x`,
`X`, `*`; an absent component behaves as a wildcard). -/
inductive XNat where
  | x
  | num (n : Nat)
deriving DecidableEq, Repr

/-- Whether an x-range component is a wildcard. -/
def XNat.isX : XNat → Bool
  | .x => true
  | .num _ => false

/-- The numeric value of an x-range component, taking a wildcard as 0 (the
desugarings only read it behind a wildcard check, where node-semver
substitutes 0). -/
def xnatVal : XNat → Nat
  | .x => 0
  | .num n => n

/-- A parsed x-range version pattern (node-semver `XRANGEPLAIN`):
wildcardable major/minor/patch with optional prerelease and build. -/
structure XrVer where
  major : XNat
  minor : XNat
  patch : XNat
  pre : List PreId
  build : List String
deriving DecidableEq, Repr

/-- Parses one dot-component of an x-range pattern: a wildcard or a
numeric component (`XRANGEIDENTIFIER`). -/
def parseXrComp (cs : List Char) : Option XNat :=
  if cs = ['x'] ∨ cs = ['X'] ∨ cs = ['*'] then some .x
  else (parseNumId cs).map .num

/-- Parses one to three dot-separated x-range components; the flag records
whether all three are present (prerelease and build require that in the
grammar). -/
def parseXrComps (cs : List Char) : Option (XNat × XNat × XNat × Bool) :=
  match splitAll '.' cs with
  | [a] => (parseXrComp a).map fun M => (M, .x, .x, false)
  | [a, b] =>
    match parseXrComp a, parseXrComp b with
    | some M, some m => some (M, m, .x, false)
    | _, _ => none
  | [a, b, c] =>
    match parseXrComp a, parseXrComp b, parseXrComp c with
    | some M, some m, some p => some (M, m, p, true)
    | _, _, _ => none
  | _ => none

/-- Parses the part of an x-range pattern before build metadata:
components plus an optional `-prerelease` suffix. -/
def parseXrMain (cs : List Char) :
    Option (XNat × XNat × XNat × List PreId × Bool) :=
  match splitFirst '-' cs with
  | some (xrs, pre) =>
    match parseXrComps xrs, parseDotted parsePreId pre with
    | some (M, m, p, three), some ids =>
      if three then some (M, m, p, ids, three) else none
    | _, _ => none
  | none =>
    (parseXrComps cs).map fun (M, m, p, three) => (M, m, p, [], three)

/-- Parses an x-range version pattern: a junk run of `v`/`=`/space (the
`[v=\s]*` of `XRANGEPLAIN`), one to three components, then optional
prerelease and build, which require all three components to be present. -/
def parseXrVer (cs0 : List Char) : Option XrVer :=
  let cs := cs0.dropWhile fun c => c = 'v' ∨ c = '=' ∨ c = ' '
  if cs = [] then none
  else
    match splitFirst '+' cs with
    | some (main, bld) =>
      match parseXrMain main, parseDotted parseBuildId bld with
      | some (M, m, p, pre, three), some b =>
        if three then some ⟨M, m, p, pre, b⟩ else none
      | _, _ => none
    | none =>
      (parseXrMain cs).map fun (M, m, p, pre, _) => ⟨M, m, p, pre, []⟩

/-- The prerelease `-0` that node-semver puts on exclusive upper bounds. -/
def zeroPre : List PreId := [.num 0]

/-- Successor guarded by the safe-integer bound: a desugaring that would
produce a component above it is rejected by the `SemVer` constructor
inside `Comparator`, making the whole range invalid. -/
def succSafe (n : Nat) : Option Nat :=
  if n + 1 ≤ maxSafeInt then some (n + 1) else none

/-- Builds a comparator with no build metadata. -/
def mkCmp (op : CompOp) (M m p : Nat) (pre : List PreId) : Comparator :=
  ⟨op, ⟨M, m, p, pre, []⟩⟩

/-- Desugars a primitive or bare x-range pattern (node-semver
`replaceXRange` in strict mode, followed by star replacement): a wildcard
major with `>`/`<` matches nothing and otherwise everything; other
wildcards widen the pattern to its bounds, `=` on a wildcard pattern drops
the operator, and a full version keeps its operator (equality when bare).
The empty list is the match-anything contribution (the `ANY`
comparator). -/
def xrangeDesugar (gtlt : Option CompOp) (P : XrVer) :
    Option (List Comparator) :=
  match P.major with
  | .x =>
    match gtlt with
    | some .gtOp => some [mkCmp .ltOp 0 0 0 zeroPre]
    | some .ltOp => some [mkCmp .ltOp 0 0 0 zeroPre]
    | _ => some []
  | .num M =>
    let xm := P.minor.isX
    let m := xnatVal P.minor
    let xp := xm || P.patch.isX
    let p := xnatVal P.patch
    let gtlt' := if gtlt = some .eqOp ∧ xp = true then none else gtlt
    match gtlt' with
    | some op =>
      if xp then
        match op with
        | .gtOp =>
          if xm then (succSafe M).map fun M' => [mkCmp .geOp M' 0 0 []]
          else (succSafe m).map fun m' => [mkCmp .geOp M m' 0 []]
        | .leOp =>
          if xm then (succSafe M).map fun M' => [mkCmp .ltOp M' 0 0 zeroPre]
          else (succSafe m).map fun m' => [mkCmp .ltOp M m' 0 zeroPre]
        | .ltOp => some [mkCmp .ltOp M m 0 zeroPre]
        | .geOp => some [mkCmp .geOp M m 0 []]
        | .eqOp => none
      else some [mkCmp op M m p P.pre]
    | none =>
      if xm then (succSafe M).map fun M' =>
        [mkCmp .geOp M 0 0 [], mkCmp .ltOp M' 0 0 zeroPre]
      else if xp then (succSafe m).map fun m' =>
        [mkCmp .geOp M m 0 [], mkCmp .ltOp M m' 0 zeroPre]
      else some [mkCmp .eqOp M m p P.pre]

/-- Desugars a tilde range (node-semver `replaceTilde`): patch-level
changes allowed, minor-level for a bare `~M`. -/
def tildeDesugar (P : XrVer) : Option (List Comparator) :=
  match P.major with
  | .x => some []
  | .num M =>
    if P.minor.isX then (succSafe M).map fun M' =>
      [mkCmp .geOp M 0 0 [], mkCmp .ltOp M' 0 0 zeroPre]
    else
      let m := xnatVal P.minor
      match P.patch with
      | .x => (succSafe m).map fun m' =>
        [mkCmp .geOp M m 0 [], mkCmp .ltOp M m' 0 zeroPre]
      | .num p => (succSafe m).map fun m' =>
        [mkCmp .geOp M m p P.pre, mkCmp .ltOp M m' 0 zeroPre]

/-- Desugars a caret range (node-semver `replaceCaret` in strict mode),
with the zero-major and zero-minor special cases. -/
def caretDesugar (P : XrVer) : Option (List Comparator) :=
  match P.major with
  | .x => some []
  | .num M =>
    if P.minor.isX then (succSafe M).map fun M' =>
      [mkCmp .geOp M 0 0 [], mkCmp .ltOp M' 0 0 zeroPre]
    else
      let m := xnatVal P.minor
      match P.patch with
      | .x =>
        if M = 0 then (succSafe m).map fun m' =>
          [mkCmp .geOp M m 0 [], mkCmp .ltOp M m' 0 zeroPre]
        else (succSafe M).map fun M' =>
          [mkCmp .geOp M m 0 [], mkCmp .ltOp M' 0 0 zeroPre]
      | .num p =>
        if M = 0 then
          if m = 0 then (succSafe p).map fun p' =>
            [mkCmp .geOp 0 0 p P.pre, mkCmp .ltOp 0 0 p' zeroPre]
          else (succSafe m).map fun m' =>
            [mkCmp .geOp 0 m p P.pre, mkCmp .ltOp 0 m' 0 zeroPre]
        else (succSafe M).map fun M' =>
          [mkCmp .geOp M m p P.pre, mkCmp .ltOp M' 0 0 zeroPre]

/-- Desugars a hyphen range (node-semver `hyphenReplace`): an inclusive
lower bound, an upper bound that is exclusive when the right end has
wildcards and inclusive otherwise; a wildcard major drops its side. -/
def hyphenDesugar (F T : XrVer) : Option (List Comparator) :=
  let lower : Option (List Comparator) :=
    match F.major with
    | .x => some []
    | .num fM =>
      if F.minor.isX then some [mkCmp .geOp fM 0 0 []]
      else
        let fm := xnatVal F.minor
        match F.patch with
        | .x => some [mkCmp .geOp fM fm 0 []]
        | .num fp => some [mkCmp .geOp fM fm fp F.pre]
  let upper : Option (List Comparator) :=
    match T.major with
    | .x => some []
    | .num tM =>
      if T.minor.isX then (succSafe tM).map fun tM' =>
        [mkCmp .ltOp tM' 0 0 zeroPre]
      else
        let tm := xnatVal T.minor
        match T.patch with
        | .x => (succSafe tm).map fun tm' => [mkCmp .ltOp tM tm' 0 zeroPre]
        | .num tp => some [mkCmp .leOp tM tm tp T.pre]
  match lower, upper with
  | some lo, some up => some (lo ++ up)
  | _, _ => none

/-- Maps every whitespace character to a plain space. -/
def squashWs : List Char → List Char
  | [] => []
  | c :: rest => (if c.isWhitespace then ' ' else c) :: squashWs rest

/-- Collapses runs of spaces to a single space. -/
def dedupSpace : List Char → List Char
  | [] => []
  | [c] => [c]
  | a :: b :: rest =>
    if a = ' ' ∧ b = ' ' then dedupSpace (b :: rest)
    else a :: dedupSpace (b :: rest)

/-- Whitespace normalization of a range string (JS
`trim().split(/\s+/).join(" ")`). -/
def normalizeWs (cs : List Char) : List Char :=
  trimChars (dedupSpace (squashWs cs))

/-- Splits on `||` like JS `split("||")` (leftmost matches, an odd bar
stays in its segment). -/
def splitBars : List Char → List (List Char)
  | [] => [[]]
  | '|' :: '|' :: rest => [] :: splitBars rest
  | c :: rest =>
    match splitBars rest with
    | h :: t => (c :: h) :: t
    | [] => [[c]]

/-- Splits at the first ` - ` (the hyphen-range separator). -/
def splitDash : List Char → Option (List Char × List Char)
  | [] => none
  | ' ' :: '-' :: ' ' :: rest => some ([], rest)
  | c :: rest => (splitDash rest).map fun lr => (c :: lr.1, lr.2)

/-- Comparator operator tokens (`GTLT`, nonempty). -/
def isOpTok (t : List Char) : Bool :=
  t = ['<'] ∨ t = ['>'] ∨ t = ['='] ∨ t = ['<', '='] ∨ t = ['>', '=']

/-- Tilde and caret operator tokens. -/
def isTildeTok (t : List Char) : Bool :=
  t = ['~'] ∨ t = ['~', '>'] ∨ t = ['^']

/-- Whether a token can start an x-range pattern: `v`/`=` junk or a
component start. -/
def plainStart (t : List Char) : Bool :=
  match t with
  | c :: _ => c.isDigit || c = 'x' || c = 'X' || c = '*' || c = 'v' || c = '='
  | [] => false

/-- Joins a lone comparator operator token with a following pattern token,
as the `COMPARATORTRIM` rewrite removes the separating whitespace; the
joined token is not rejoined (the rewrite scan moves on). -/
def opGlueAux (t : List Char) : List (List Char) → List (List Char)
  | [] => [t]
  | u :: rest =>
    if isOpTok t ∧ plainStart u = true ∧ ¬ isOpTok u then
      (t ++ u) ::
        (match rest with
          | [] => []
          | v :: rest2 => opGlueAux v rest2)
    else t :: opGlueAux u rest

/-- Applies the operator-joining rewrite to a whole token list. -/
def opGlue : List (List Char) → List (List Char)
  | [] => []
  | t :: rest => opGlueAux t rest

/-- Joins a lone tilde or caret token with the following token, as the
`TILDETRIM`/`CARETTRIM` rewrites do (they join regardless of what
follows). -/
def tildeGlueAux (t : List Char) : List (List Char) → List (List Char)
  | [] => [t]
  | u :: rest =>
    if isTildeTok t then
      (t ++ u) ::
        (match rest with
          | [] => []
          | v :: rest2 => tildeGlueAux v rest2)
    else t :: tildeGlueAux u rest

/-- Applies the tilde/caret-joining rewrite to a whole token list. -/
def tildeGlue : List (List Char) → List (List Char)
  | [] => []
  | t :: rest => tildeGlueAux t rest

/-- Parses one comparator token into its comparator-list contribution: the
tilde (also `~>`) and caret forms, an explicit primitive operator (a lone
operator with no version is the match-anything `ANY` comparator, as the
`COMPARATOR` regex makes the version optional), or a bare x-range
pattern. -/
def parseToken (t : List Char) : Option (List Comparator) :=
  match t with
  | '~' :: rest =>
    (parseXrVer (match rest with | '>' :: r => r | _ => rest)).bind
      tildeDesugar
  | '^' :: rest => (parseXrVer rest).bind caretDesugar
  | '<' :: '=' :: rest =>
    if rest = [] then some []
    else (parseXrVer rest).bind (xrangeDesugar (some .leOp))
  | '>' :: '=' :: rest =>
    if rest = [] then some []
    else (parseXrVer rest).bind (xrangeDesugar (some .geOp))
  | '<' :: rest =>
    if rest = [] then some []
    else (parseXrVer rest).bind (xrangeDesugar (some .ltOp))
  | '>' :: rest =>
    if rest = [] then some []
    else (parseXrVer rest).bind (xrangeDesugar (some .gtOp))
  | '=' :: rest =>
    if rest = [] then some []
    else (parseXrVer rest).bind (xrangeDesugar (some .eqOp))
  | _ => (parseXrVer t).bind (xrangeDesugar none)

/-- The comparator `>=0.0.0`, which the `replaceGTE0` rewrite turns into
the match-anything comparator. -/
def gte0 : Comparator := mkCmp .geOp 0 0 0 []

/-- Parses one `||`-alternative of a range into its comparator set: an
empty alternative matches anything; a hyphen range desugars both ends;
otherwise the space-separated comparator tokens, after the
operator-joining rewrites, conjoin. The `replaceGTE0` rewrite then drops
`>=0.0.0` comparators. -/
def parseSegment (seg0 : List Char) : Option (List Comparator) :=
  let seg := trimChars seg0
  let core : Option (List Comparator) :=
    if seg = [] then some []
    else
      match splitDash seg with
      | some (l, r) =>
        match parseXrVer l, parseXrVer r with
        | some F, some T => hyphenDesugar F T
        | _, _ => none
      | none =>
        ((tildeGlue (opGlue (splitAll ' ' seg))).mapM parseToken).map
          List.flatten
  core.map (List.filter fun c => c != gte0)

/-- Models the node-semver `Range` parse with default (strict) options:
whitespace is normalized, alternatives split on `||` and each parsed as a
comparator set; `maxSatisfying` turns a `none` (the constructor throwing
on a token no rewrite makes a valid comparator) into a `null` result. Not
replicated is the regex pipeline's treatment of `v`/`=` junk interleaved
with further whitespace inside one comparator beyond the single trimmed
separator (such as `>= = 1.2.3`), which sits outside the documented
grammar. -/
def parseRange (s : String) : Option Range :=
  ((splitBars (normalizeWs s.data)).mapM parseSegment : Option Range)

/-- Tests a version string against a range (`Range.prototype.test`):
unparseable versions never match. -/
def testStr (s : String) (r : Range) : Bool :=
  match parseSemver s with
  | some v => testRange v r
  | none => false

/-- Whether the first version string parses strictly below the second
(`maxSV.compare(v) === -1` in the `maxSatisfying` scan); false when either
fails to parse. -/
def semverLtB (m v : String) : Bool :=
  match parseSemver m, parseSemver v with
  | some a, some b => compareSemver a b = .lt
  | _, _ => false

/-- One step of the `maxSatisfying` scan: keep the current maximum unless
the new version is strictly greater. -/
def maxStep (r : Range) (acc : Option String) (v : String) : Option String :=
  if testStr v r then
    match acc with
    | none => some v
    | some m => if semverLtB m v then some v else some m
  else acc

/-- Models `semver.maxSatisfying(versions, range)`: `null` on an invalid
range, otherwise the first maximal version string satisfying the range. -/
def maxSatisfying (versions : List String) (rangeStr : String) :
    Option String :=
  match parseRange rangeStr with
  | none => none
  | some r => versions.foldl (maxStep r) none

/-- A release record as used by the action: only `tag_name` is read. -/
structure Release where
  tag_name : String
deriving DecidableEq, Repr

/-- Observable events of a run, in order: published outputs
(`core.setOutput`), download attempts (`tc.downloadTool` on a release
asset), path extension (`core.addPath`), tool-cache registration
(`tc.cacheDir`), the single unauthenticated releases fetch, and failure
reports (`core.setFailed`). -/
inductive Ev where
  | outputEv (name val : String)
  | downloadEv (url : String)
  | addPathEv (p : String)
  | cacheRegEv (tool ver dir : String)
  | fetchEv (url : String)
  | failedEv (msg : String)
deriving DecidableEq, Repr

/-- How a step fails: `exited` models `core.setFailed` followed by
`process.exit(1)` (the failure event is already logged at the site);
`thrown` models a raised exception that propagates to `run`'s catch. -/
inductive Failure where
  | exited (msg : String)
  | thrown (msg : String)
deriving DecidableEq, Repr

/-- The run environment: the configuration values returned by
`core.getInput` and the behaviour of every external collaborator (GitHub
API, network downloads, filesystem, tool cache). -/
structure Env where
  /-- Value of `core.getInput("token")`. -/
  token : String
  /-- Value of `core.getInput("version")`. -/
  versionIn : String
  /-- Pages returned by `octokit.paginate` on the releases endpoint, in
  server order. -/
  authPages : List (List Release)
  /-- Result of `tc.downloadTool(releasesUrl)`: a local path, or a thrown
  error message. -/
  unauthFetch : Except String String
  /-- Result of reading and `JSON.parse`-ing the fetched file: the release
  records, or the parse error's message. -/
  unauthParse : String → Except String (List Release)
  /-- Value of `process.platform`. -/
  platform : String
  /-- Value of `process.arch`. -/
  arch : String
  /-- Result of `tc.find("utpm", version)`: the empty string when the tool
  cache has no entry. -/
  cacheFind : String → String
  /-- Result of `tc.downloadTool(url)` for an asset url: a local path, or a
  thrown error message. -/
  download : String → Except String String
  /-- Result of `fs.existsSync`. -/
  fileExists : String → Bool
  /-- Result of `fs.statSync(path).size`. -/
  fileSize : String → Nat
  /-- Result of `tc.extractZip`: extraction directory or a thrown error. -/
  extractZip : String → Except String String
  /-- Result of `tc.extractTar`: extraction directory or a thrown error. -/
  extractTar : String → Except String String
  /-- Result of `tc.cacheDir(dir, tool, version)`. -/
  cacheDir : String → String → String → String

/-- The unauthenticated releases-listing URL for a repository
(`https://api.github.com/repos/owner/repo/releases`). -/
def releasesUrl (owner repo : String) : String :=
  "https://api.github.com/repos/" ++ owner ++ "/" ++ repo ++ "/releases"

/-- The fatal diagnostic of an unparseable unauthenticated listing
response, naming the likely cause (API rate limit). -/
def rateLimitMsg (owner repo parseErr : String) : String :=
  "Failed to parse releases from " ++ releasesUrl owner repo ++ ": " ++
    parseErr ++ ". This may be caused by API rate limit exceeded."

/-- The fatal diagnostic of a failed version resolution. -/
def unresolvedMsg (version : String) : String :=
  "UTPM " ++ version ++ " could not be resolved."

/-- The fatal diagnostic of an unsupported platform. -/
def unsupportedMsg (platform arch : String) : String :=
  "Unsupported platform: " ++ platform ++ "-" ++ arch

/-- The fatal diagnostic when no candidate target yields a usable
artifact. -/
def noTargetMsg (version : String) : String :=
  "Failed to download UTPM v" ++ version ++ " for any compatible target"

/-- The fatal diagnostic when the expected binary is absent from the
extraction output. -/
def binMissingMsg (binaryPath : String) : String :=
  "Binary not found at " ++ binaryPath

/-- Models `listReleases` (src/index.ts lines 10-37): with an authenticated
client, a paginated listing whose pages are concatenated in server order;
without one, a single unauthenticated fetch whose parse failure is fatal
(`core.setFailed` naming the rate limit, then `process.exit(1)`). -/
def listReleasesM (env : Env) (hasOctokit : Bool) (owner repo : String) :
    List Ev × Except Failure (List Release) :=
  if hasOctokit then
    ([], .ok env.authPages.flatten)
  else
    let url := releasesUrl owner repo
    match env.unauthFetch with
    | .error m => ([Ev.fetchEv url], .error (.thrown m))
    | .ok p =>
      match env.unauthParse p with
      | .ok rs => ([Ev.fetchEv url], .ok rs)
      | .error e =>
        let msg := rateLimitMsg owner repo e
        ([Ev.fetchEv url, Ev.failedEv msg], .error (.exited msg))

/-- Strips a single leading `v` from a tag, as `tag.replace(/^v/, "")`
does. -/
def stripV (s : String) : String :=
  match s.data with
  | 'v' :: t => ⟨t⟩
  | _ => s

/-- The candidate version strings of `getExactVersion`: each tag with a
leading `v` stripped, kept when `semver.valid` accepts it. -/
def validVersions (releases : List Release) : List String :=
  (releases.map (fun r => stripV r.tag_name)).filter
    (fun v => (parseSemver v).isSome)

/-- Models `getExactVersion` (src/index.ts lines 39-56): strip `v`, filter
by `semver.valid`, resolve with `maxSatisfying` against the constraint
(`"latest"` becomes `"*"`), and fail fatally when nothing resolves. -/
def getExactVersionM (releases : List Release) (version : String) :
    List Ev × Except Failure String :=
  match maxSatisfying (validVersions releases)
      (if version = "latest" then "*" else version) with
  | some v => ([], .ok v)
  | none =>
    let msg := unresolvedMsg version
    ([Ev.failedEv msg], .error (.exited msg))

/-- The fixed platform-to-targets table of `downloadAndCacheUtpm`, keyed by
`[process.platform, process.arch].join(",")`. -/
def targetsTable : List (String × List String) :=
  [("darwin,arm64", ["aarch64-apple-darwin"]),
   ("darwin,x64", ["x86_64-apple-darwin"]),
   ("linux,x64", ["x86_64-unknown-linux-musl", "x86_64-unknown-linux-gnu"]),
   ("linux,arm64", ["aarch64-unknown-linux-gnu"]),
   ("win32,x64", ["x86_64-pc-windows-msvc"]),
   ("win32,arm64", ["aarch64-pc-windows-msvc"])]

/-- Looks a platform key up in the targets table (JS object property
access). -/
def targetsLookup (key : String) : Option (List String) :=
  targetsTable.lookup key

/-- The archive extension chosen from `process.platform` (`.zip` on
win32, `.tar.gz` otherwise). -/
def archiveExtOf (env : Env) : String :=
  if env.platform = "win32" then ".zip" else ".tar.gz"

/-- The expected binary filename chosen from `process.platform`
(`utpm.exe` on win32, `utpm` otherwise). -/
def binaryNameOf (env : Env) : String :=
  if env.platform = "win32" then "utpm.exe" else "utpm"

/-- The download URL of one candidate target's asset. -/
def assetUrl (version candidateTarget archiveExt : String) : String :=
  "https://github.com/typst-community/utpm/releases/download/v" ++ version ++
    "/utpm-" ++ candidateTarget ++ archiveExt

/-- Models the candidate loop of `downloadAndCacheUtpm` (src/index.ts lines
85-107): mutable `downloaded`/`target` threaded through; a candidate is
chosen (loop breaks) when its download succeeds and the file exists and is
non-empty; a download that throws, or a downloaded file failing
verification, moves to the next candidate (the latter leaves `downloaded`
set). -/
def tryCandidates (env : Env) (version archiveExt : String) :
    List String → Option String → List Ev × Option String × Option String
  | [], downloaded => ([], downloaded, none)
  | c :: rest, downloaded =>
    let url := assetUrl version c archiveExt
    match env.download url with
    | .error _ =>
      let (l, d, t) := tryCandidates env version archiveExt rest downloaded
      (Ev.downloadEv url :: l, d, t)
    | .ok p =>
      if env.fileExists p ∧ env.fileSize p > 0 then
        ([Ev.downloadEv url], some p, some c)
      else
        let (l, d, t) := tryCandidates env version archiveExt rest (some p)
        (Ev.downloadEv url :: l, d, t)

/-- The extraction step (src/index.ts lines 116-128): on win32 the
downloaded file is renamed to carry a `.zip` extension if needed and
`tc.extractZip` is used; otherwise `tc.extractTar`. -/
def extractArchive (env : Env) (dl : String) : Except String String :=
  if env.platform = "win32" then
    env.extractZip
      (if ".zip".data.isSuffixOf dl.data then dl else dl ++ ".zip")
  else
    env.extractTar dl

/-- Models `downloadAndCacheUtpm` (src/index.ts lines 58-145): platform
lookup (fatal when unsupported), candidate download loop (fatal when no
candidate both downloads and verifies), extraction (zip with an enforced
`.zip` extension on win32, tar otherwise), binary presence check at the top
of the extraction output (fatal when absent), then `tc.cacheDir`
registration. -/
def downloadAndCacheUtpmM (env : Env) (version : String) :
    List Ev × Except Failure String :=
  let platformKey := env.platform ++ "," ++ env.arch
  match targetsLookup platformKey with
  | none =>
    let msg := unsupportedMsg env.platform env.arch
    ([Ev.failedEv msg], .error (.exited msg))
  | some possibleTargets =>
    let archiveExt := archiveExtOf env
    let binaryName := binaryNameOf env
    let (log, downloaded, target) :=
      tryCandidates env version archiveExt possibleTargets none
    match downloaded, target with
    | some dl, some _ =>
      match extractArchive env dl with
      | .error m => (log, .error (.thrown m))
      | .ok extracted =>
        let binaryPath := extracted ++ "/" ++ binaryName
        if env.fileExists binaryPath then
          let cachedPath := env.cacheDir extracted "utpm" version
          (log ++ [Ev.cacheRegEv "utpm" version extracted], .ok cachedPath)
        else
          let msg := binMissingMsg binaryPath
          (log ++ [Ev.failedEv msg], .error (.exited msg))
    | _, _ =>
      let msg := noTargetMsg version
      (log ++ [Ev.failedEv msg], .error (.exited msg))

/-- The listing-then-resolution part of `run` (src/index.ts lines 149-161):
an octokit client exists exactly when the token input is truthy; then
`listReleases` and `getExactVersion` with the constraint defaulted to
`"latest"` when the version input is empty. -/
def resolveStep (env : Env) : List Ev × Except Failure String :=
  let hasOctokit := env.token ≠ ""
  let (l1, rel) := listReleasesM env hasOctokit "typst-community" "utpm"
  match rel with
  | .error f => (l1, .error f)
  | .ok releases =>
    let version := if env.versionIn = "" then "latest" else env.versionIn
    let (l2, ve) := getExactVersionM releases version
    (l1 ++ l2, ve)

/-- Log contribution of `run`'s catch block: an exception reaching the top
is reported via `core.setFailed`; a `process.exit(1)` site has already
reported its own failure. -/
def catchLog : Failure → List Ev
  | .exited _ => []
  | .thrown m => [Ev.failedEv ("Action failed: " ++ m)]

/-- Models `run` (src/index.ts lines 147-178): resolve the version, publish
`cache-hit` from the pre-acquisition `tc.find` lookup, acquire on a cache
miss, then extend the path and publish `version`. Returns the event log in
order and whether the run failed. -/
def runM (env : Env) : List Ev × Bool :=
  let (l1, ve) := resolveStep env
  match ve with
  | .error f => (l1 ++ catchLog f, true)
  | .ok versionExact =>
    let found := env.cacheFind versionExact
    let hitEv := Ev.outputEv "cache-hit" (if found ≠ "" then "true" else "false")
    if found = "" then
      let (l3, ce) := downloadAndCacheUtpmM env versionExact
      match ce with
      | .error f => (l1 ++ hitEv :: l3 ++ catchLog f, true)
      | .ok path =>
        (l1 ++ hitEv :: l3 ++
          [Ev.addPathEv path, Ev.outputEv "version" versionExact], false)
    else
      (l1 ++ [hitEv, Ev.addPathEv found, Ev.outputEv "version" versionExact],
        false)

/-- Version-string precedence: `w` is at most `m` when their parses never
compare greater (vacuous for unparseable strings). -/
def strLe (w m : String) : Prop :=
  ∀ pw pm, parseSemver w = some pw → parseSemver m = some pm →
    compareSemver pw pm ≠ .gt

/-- Whether one candidate target's download attempt would succeed and
verify: the download must return a path whose file exists and is
non-empty. -/
def candOk (env : Env) (version archiveExt c : String) : Bool :=
  match env.download (assetUrl version c archiveExt) with
  | .ok p => env.fileExists p && env.fileSize p > 0
  | .error _ => false

/-- The six supported (OS, architecture) pairs of the targets table. -/
def supportedPairs : List (String × String) :=
  [("darwin", "arm64"), ("darwin", "x64"), ("linux", "x64"),
   ("linux", "arm64"), ("win32", "x64"), ("win32", "arm64")]

/-- A concrete linux/x64 environment with one release tag `v1.0.0`, an
empty tool cache and all downloads failing; evaluation points for the
theorems are built from it by field updates. -/
def baseEnv : Env where
  token := ""
  versionIn := "latest"
  authPages := []
  unauthFetch := .ok "releases.json"
  unauthParse := fun _ => .ok [⟨"v1.0.0"⟩]
  platform := "linux"
  arch := "x64"
  cacheFind := fun _ => ""
  download := fun _ => .error "404"
  fileExists := fun _ => false
  fileSize := fun _ => 0
  extractZip := fun _ => .ok "extracted"
  extractTar := fun _ => .ok "extracted"
  cacheDir := fun d _ _ => d

/-- A variant of `baseEnv` where only the gnu target's asset downloads,
and downloaded files verify. -/
def fallbackEnv : Env :=
  { baseEnv with
      download := fun u =>
        if u = assetUrl "1.0.0" "x86_64-unknown-linux-gnu" ".tar.gz"
        then .ok "dl" else .error "404",
      fileExists := fun _ => true, fileSize := fun _ => 1 }

/-- A variant of `baseEnv` where every download succeeds and verifies, so
a run completes. -/
def okEnv : Env :=
  { baseEnv with
      download := fun _ => .ok "dl",
      fileExists := fun _ => true, fileSize := fun _ => 1 }

/-- A variant of `okEnv` whose tool cache already holds every version. -/
def cachedEnv : Env :=
  { okEnv with cacheFind := fun _ => "cached" }

/-- A variant of `baseEnv` where the download verifies but the extraction
output lacks the expected binary. -/
def noBinEnv : Env :=
  { baseEnv with
      download := fun _ => .ok "dl",
      fileExists := fun p => p = "dl", fileSize := fun _ => 1 }

/-- A variant of `baseEnv` whose unauthenticated listing response does not
parse. -/
def parseFailEnv : Env :=
  { baseEnv with unauthParse := fun _ => .error "Unexpected token" }

/-! Lawfulness of the precedence comparators. -/

open Batteries (OrientedCmp TransCmp)

theorem cmpSymm {α : Type} (cmp : α → α → Ordering) [OrientedCmp cmp]
    (x y : α) : (cmp x y).swap = cmp y x :=
  OrientedCmp.symm x y

theorem cmpRefl {α : Type} (cmp : α → α → Ordering) [OrientedCmp cmp]
    (x : α) : cmp x x = .eq :=
  OrientedCmp.cmp_refl

theorem cmpNeGt {α : Type} (cmp : α → α → Ordering) [OrientedCmp cmp]
    {x y : α} : cmp x y ≠ .gt ↔ cmp y x ≠ .lt :=
  OrientedCmp.cmp_ne_gt

theorem cmpLeTrans {α : Type} (cmp : α → α → Ordering) [TransCmp cmp]
    {x y z : α} (h₁ : cmp x y ≠ .gt) (h₂ : cmp y z ≠ .gt) :
    cmp x z ≠ .gt :=
  TransCmp.le_trans h₁ h₂

theorem cmpLtTrans {α : Type} (cmp : α → α → Ordering) [TransCmp cmp]
    {x y z : α} (h₁ : cmp x y = .lt) (h₂ : cmp y z = .lt) :
    cmp x z = .lt :=
  TransCmp.lt_trans h₁ h₂

theorem cmpCongrL {α : Type} (cmp : α → α → Ordering) [TransCmp cmp]
    {x y z : α} (h : cmp x y = .eq) : cmp x z = cmp y z :=
  TransCmp.cmp_congr_left h

theorem cmpCongrR {α : Type} (cmp : α → α → Ordering) [TransCmp cmp]
    {x y z : α} (h : cmp y z = .eq) : cmp x y = cmp x z :=
  TransCmp.cmp_congr_right h

theorem strCmpIf_eq_lt {a b : String} :
    (if a < b then Ordering.lt else if b < a then Ordering.gt else
      Ordering.eq) = .lt ↔ a < b := by
  rcases lt_trichotomy a b with h | h | h
  · simp [h]
  · simp [h, lt_irrefl]
  · simp [h, asymm h]

theorem strCmpIf_eq_gt {a b : String} :
    (if a < b then Ordering.lt else if b < a then Ordering.gt else
      Ordering.eq) = .gt ↔ b < a := by
  rcases lt_trichotomy a b with h | h | h
  · simp [h, asymm h]
  · simp [h, lt_irrefl]
  · simp [h, asymm h]

instance : OrientedCmp comparePreId where
  symm a b := by
    cases a <;> cases b <;> simp only [comparePreId]
    case num.num m n => exact cmpSymm compare ..
    case num.str => rfl
    case str.num => rfl
    case str.str s t =>
      rcases lt_trichotomy s t with h | h | h
      · rw [if_pos h, if_neg (asymm h), if_pos h]; rfl
      · subst h
        rw [if_neg (lt_irrefl s), if_neg (lt_irrefl s)]
        rfl
      · rw [if_neg (asymm h), if_pos h, if_pos h]; rfl

instance : TransCmp comparePreId where
  le_trans {x y z} h₁ h₂ := by
    cases x <;> cases y <;> cases z
    case num.num.num => exact cmpLeTrans compare h₁ h₂
    case num.num.str => simp [comparePreId]
    case num.str.num => exact absurd rfl h₂
    case num.str.str => simp [comparePreId]
    case str.num.num => exact absurd rfl h₁
    case str.num.str => exact absurd rfl h₁
    case str.str.num => exact absurd rfl h₂
    case str.str.str s t u =>
      simp only [comparePreId, Ne, strCmpIf_eq_gt] at h₁ h₂ ⊢
      exact fun h => h₂ (lt_of_lt_of_le h (not_lt.mp h₁))

theorem comparePreRest_symm :
    ∀ as bs : List PreId, comparePreRest as bs = (comparePreRest bs as).swap
  | [], [] => rfl
  | [], _ :: _ => rfl
  | _ :: _, [] => rfl
  | a :: as, b :: bs => by
    rcases h : comparePreId b a with _ | _ | _
    · have hab : comparePreId a b = .gt := OrientedCmp.cmp_eq_gt.mpr h
      simp [comparePreRest, hab, h, Ordering.swap]
    · have hab : comparePreId a b = .eq := OrientedCmp.cmp_eq_eq_symm.mpr h
      simp [comparePreRest, hab, h, comparePreRest_symm as bs]
    · have hab : comparePreId a b = .lt := OrientedCmp.cmp_eq_gt.mp h
      simp [comparePreRest, hab, h, Ordering.swap]

theorem comparePreRest_le_trans :
    ∀ {as bs cs : List PreId}, comparePreRest as bs ≠ .gt →
      comparePreRest bs cs ≠ .gt → comparePreRest as cs ≠ .gt
  | [], bs, [], _, _ => by cases bs <;> simp [comparePreRest]
  | [], bs, _ :: _, _, _ => by simp [comparePreRest]
  | _ :: _, [], [], h₁, _ => by simp [comparePreRest] at h₁
  | _ :: _, b :: _, [], _, h₂ => by simp [comparePreRest] at h₂
  | _ :: _, [], _ :: _, h₁, _ => by simp [comparePreRest] at h₁
  | a :: as, b :: bs, c :: cs, h₁, h₂ => by
    simp only [comparePreRest] at h₁ h₂ ⊢
    rcases h₁₂ : comparePreId a b with _ | _ | _ <;> rw [h₁₂] at h₁ <;>
      rcases h₂₃ : comparePreId b c with _ | _ | _ <;> rw [h₂₃] at h₂
    · rw [cmpLtTrans comparePreId h₁₂ h₂₃]; simp
    · rw [← cmpCongrR comparePreId h₂₃, h₁₂]; simp
    · exact absurd rfl h₂
    · rw [cmpCongrL comparePreId h₁₂, h₂₃]; simp
    · rw [cmpCongrL comparePreId h₁₂, h₂₃]
      exact comparePreRest_le_trans h₁ h₂
    · exact absurd rfl h₂
    · exact absurd rfl h₁
    · exact absurd rfl h₁
    · exact absurd rfl h₁

instance : TransCmp comparePre where
  symm a b := by
    cases a <;> cases b <;> first | rfl | exact (comparePreRest_symm ..).symm
  le_trans {x y z} h₁ h₂ := by
    cases x with
    | nil =>
      cases z with
      | nil => exact fun hh => nomatch hh
      | cons c cs =>
        cases y with
        | nil => exact h₂
        | cons b bs => exact h₁
    | cons a as =>
      cases z with
      | nil => exact fun hh => nomatch hh
      | cons c cs =>
        cases y with
        | nil => exact absurd rfl h₂
        | cons b bs => exact comparePreRest_le_trans h₁ h₂

instance : TransCmp (fun a b : SemVer => comparePre a.prerelease b.prerelease)
    where
  symm _ _ := cmpSymm comparePre ..
  le_trans h₁ h₂ := cmpLeTrans comparePre h₁ h₂

theorem compareSemver_eq_lex : compareSemver = compareLex (compareOn
    SemVer.major) (compareLex (compareOn SemVer.minor) (compareLex
    (compareOn SemVer.patch)
    (fun a b => comparePre a.prerelease b.prerelease))) := rfl

instance : TransCmp compareSemver := compareSemver_eq_lex ▸ inferInstance

/-! Correctness of the `maxSatisfying` scan. -/

theorem strLe_refl (w : String) : strLe w w := by
  intro pw pm h₁ h₂
  rw [h₁] at h₂
  cases h₂
  simp [cmpRefl compareSemver]

theorem strLe_trans {a b c : String} (hb : (parseSemver b).isSome)
    (h₁ : strLe a b) (h₂ : strLe b c) : strLe a c := by
  rcases Option.isSome_iff_exists.mp hb with ⟨pb, hpb⟩
  intro pa pc hpa hpc
  exact cmpLeTrans compareSemver (h₁ pa pb hpa hpb) (h₂ pb pc hpb hpc)

theorem testStr_isSome {w : String} {r : Range} (h : testStr w r = true) :
    (parseSemver w).isSome := by
  unfold testStr at h
  cases hp : parseSemver w <;> rw [hp] at h <;> simp_all

theorem semverLtB_le {k v : String} (h : semverLtB k v = false) {pk pv}
    (hpk : parseSemver k = some pk) (hpv : parseSemver v = some pv) :
    compareSemver pv pk ≠ .gt := by
  unfold semverLtB at h
  rw [hpk, hpv] at h
  simp only [decide_eq_false_iff_not] at h
  exact (cmpNeGt compareSemver).mpr h

theorem maxStep_none (r : Range) (v : String) :
    maxStep r none v = if testStr v r then some v else none := by
  unfold maxStep
  by_cases ht : testStr v r = true
  · rw [if_pos ht]
  · rw [if_neg ht]

theorem maxStep_some (r : Range) (k v : String) :
    maxStep r (some k) v =
      if testStr v r then (if semverLtB k v then some v else some k)
      else some k := by
  unfold maxStep
  by_cases ht : testStr v r = true
  · rw [if_pos ht]
  · rw [if_neg ht]

theorem maxStep_eq_some {r : Range} {acc : Option String} {v m : String}
    (h : maxStep r acc v = some m) :
    acc = some m ∨ (m = v ∧ testStr v r = true) := by
  cases acc with
  | none =>
    rw [maxStep_none] at h
    by_cases ht : testStr v r = true
    · rw [if_pos ht] at h; cases h; exact .inr ⟨rfl, ht⟩
    · rw [if_neg ht] at h; exact .inl h
  | some k =>
    rw [maxStep_some] at h
    by_cases ht : testStr v r = true
    · rw [if_pos ht] at h
      by_cases hlt : semverLtB k v = true
      · rw [if_pos hlt] at h; cases h; exact .inr ⟨rfl, ht⟩
      · rw [if_neg hlt] at h; exact .inl h
    · rw [if_neg ht] at h; exact .inl h

theorem foldl_maxStep_mem {r : Range} :
    ∀ (vs : List String) (acc : Option String) (m : String),
      vs.foldl (maxStep r) acc = some m →
      acc = some m ∨ (m ∈ vs ∧ testStr m r = true)
  | [], _, m, h => .inl h
  | v :: tl, acc, m, h => by
    rcases foldl_maxStep_mem tl (maxStep r acc v) m h with h' | ⟨hm, ht⟩
    · rcases maxStep_eq_some h' with h'' | ⟨rfl, ht⟩
      · exact .inl h''
      · exact .inr ⟨List.mem_cons_self .., ht⟩
    · exact .inr ⟨List.mem_cons_of_mem _ hm, ht⟩

theorem maxStep_keeps {r : Range} (v k : String) :
    maxStep r (some k) v = some k ∨
      (maxStep r (some k) v = some v ∧ testStr v r = true) := by
  rw [maxStep_some]
  by_cases ht : testStr v r = true
  · rw [if_pos ht]
    by_cases hlt : semverLtB k v = true
    · rw [if_pos hlt]; exact .inr ⟨rfl, ht⟩
    · rw [if_neg hlt]; exact .inl rfl
  · rw [if_neg ht]; exact .inl rfl

theorem foldl_maxStep_dom {r : Range} :
    ∀ (vs : List String) (acc : Option String) (m : String),
      (∀ k, acc = some k → testStr k r = true) →
      vs.foldl (maxStep r) acc = some m →
      (∀ w ∈ vs, testStr w r = true → strLe w m) ∧
        (∀ k, acc = some k → strLe k m)
  | [], acc, m, _, h => by
    refine ⟨by simp, fun k hk => ?_⟩
    rw [hk] at h
    cases h
    exact strLe_refl m
  | v :: tl, acc, m, hacc, h => by
    have hstep : ∀ k, maxStep r acc v = some k → testStr k r = true := by
      intro k hk
      rcases maxStep_eq_some hk with h' | ⟨rfl, ht⟩
      · exact hacc _ h'
      · exact ht
    have IH := foldl_maxStep_dom tl (maxStep r acc v) m hstep h
    refine ⟨?_, ?_⟩
    · intro w hw ht
      rcases List.mem_cons.mp hw with rfl | hw'
      · cases hacc' : acc with
        | none =>
          have hms : maxStep r acc w = some w := by
            rw [hacc', maxStep_none, if_pos ht]
          exact IH.2 w hms
        | some k =>
          by_cases hlt : semverLtB k w = true
          · have hms : maxStep r acc w = some w := by
              rw [hacc', maxStep_some, if_pos ht, if_pos hlt]
            exact IH.2 w hms
          · have hms : maxStep r acc w = some k := by
              rw [hacc', maxStep_some, if_pos ht, if_neg hlt]
            have hkm := IH.2 k hms
            have hkt := hacc k hacc'
            rcases Option.isSome_iff_exists.mp (testStr_isSome hkt)
              with ⟨pk, hpk⟩
            rcases Option.isSome_iff_exists.mp (testStr_isSome ht)
              with ⟨pv, hpv⟩
            refine strLe_trans (testStr_isSome hkt) ?_ hkm
            intro pa pb hpa hpb
            rw [hpv] at hpa; rw [hpk] at hpb
            cases hpa; cases hpb
            exact semverLtB_le (Bool.eq_false_iff.mpr hlt) hpk hpv
      · exact IH.1 w hw' ht
    · intro k hk
      by_cases ht : testStr v r = true
      · by_cases hlt : semverLtB k v = true
        · have hrep : maxStep r acc v = some v := by
            rw [hk, maxStep_some, if_pos ht, if_pos hlt]
          have hvm := IH.2 v hrep
          have hkt := hacc k hk
          rcases Option.isSome_iff_exists.mp (testStr_isSome hkt)
            with ⟨pk, hpk⟩
          rcases Option.isSome_iff_exists.mp (testStr_isSome ht)
            with ⟨pv, hpv⟩
          refine strLe_trans (testStr_isSome ht) ?_ hvm
          intro pa pb hpa hpb
          rw [hpk] at hpa; rw [hpv] at hpb
          cases hpa; cases hpb
          have hc : compareSemver pk pv = .lt := by
            unfold semverLtB at hlt
            rw [hpk, hpv] at hlt
            simpa using hlt
          simp [hc]
        · have hkeep : maxStep r acc v = some k := by
            rw [hk, maxStep_some, if_pos ht, if_neg hlt]
          exact IH.2 k hkeep
      · have hkeep : maxStep r acc v = some k := by
          rw [hk, maxStep_some, if_neg ht]
        exact IH.2 k hkeep

theorem foldl_maxStep_of_allfail {r : Range} :
    ∀ (vs : List String) (acc : Option String),
      (∀ w ∈ vs, testStr w r = false) → vs.foldl (maxStep r) acc = acc
  | [], _, _ => rfl
  | v :: tl, acc, hall => by
    have hv : testStr v r = false := hall v (List.mem_cons_self ..)
    have : maxStep r acc v = acc := by unfold maxStep; rw [hv]; simp
    rw [List.foldl_cons, this]
    exact foldl_maxStep_of_allfail tl acc (fun w hw => hall w
      (List.mem_cons_of_mem _ hw))

theorem foldl_maxStep_some_of_some {r : Range} :
    ∀ (vs : List String) (k : String),
      ∃ m, vs.foldl (maxStep r) (some k) = some m
  | [], k => ⟨k, rfl⟩
  | v :: tl, k => by
    rcases maxStep_keeps (r := r) v k with hk' | ⟨hk', _⟩
    · rw [List.foldl_cons, hk']
      exact foldl_maxStep_some_of_some tl k
    · rw [List.foldl_cons, hk']
      exact foldl_maxStep_some_of_some tl v

theorem foldl_maxStep_none_iff {r : Range} (vs : List String) :
    vs.foldl (maxStep r) none = none ↔ ∀ w ∈ vs, testStr w r = false := by
  constructor
  · intro h
    induction vs with
    | nil => simp
    | cons v tl IH =>
      rw [List.foldl_cons] at h
      by_cases ht : testStr v r = true
      · exfalso
        have hstep : maxStep r none v = some v := by
          unfold maxStep; rw [if_pos ht]
        rw [hstep] at h
        rcases foldl_maxStep_some_of_some tl v with ⟨m, hm⟩
        rw [h] at hm
        cases hm
      · have hstep : maxStep r none v = none := by
          unfold maxStep
          rw [if_neg ht]
        rw [hstep] at h
        intro w hw
        rcases List.mem_cons.mp hw with rfl | hw'
        · exact Bool.eq_false_iff.mpr ht
        · exact IH h w hw'
  · intro h
    exact foldl_maxStep_of_allfail vs none h

/-! Equation lemmas for the effectful functions. -/

theorem listReleasesM_auth (env : Env) (o r : String) :
    listReleasesM env true o r = ([], .ok env.authPages.flatten) := rfl

theorem listReleasesM_fetch_err {env : Env} (o r : String) {m : String}
    (h : env.unauthFetch = .error m) :
    listReleasesM env false o r =
      ([Ev.fetchEv (releasesUrl o r)], .error (.thrown m)) := by
  simp [listReleasesM, h]

theorem listReleasesM_parse_ok {env : Env} (o r : String) {p : String}
    {rs : List Release} (hF : env.unauthFetch = .ok p)
    (hP : env.unauthParse p = .ok rs) :
    listReleasesM env false o r = ([Ev.fetchEv (releasesUrl o r)], .ok rs) := by
  simp [listReleasesM, hF, hP]

theorem listReleasesM_parse_err {env : Env} (o r : String) {p e : String}
    (hF : env.unauthFetch = .ok p) (hP : env.unauthParse p = .error e) :
    listReleasesM env false o r =
      ([Ev.fetchEv (releasesUrl o r), Ev.failedEv (rateLimitMsg o r e)],
        .error (.exited (rateLimitMsg o r e))) := by
  simp [listReleasesM, hF, hP]

theorem getExactVersionM_ok {releases : List Release} {version v : String}
    (h : maxSatisfying (validVersions releases)
      (if version = "latest" then "*" else version) = some v) :
    getExactVersionM releases version = ([], .ok v) := by
  unfold getExactVersionM
  rw [h]

theorem getExactVersionM_err {releases : List Release} {version : String}
    (h : maxSatisfying (validVersions releases)
      (if version = "latest" then "*" else version) = none) :
    getExactVersionM releases version =
      ([Ev.failedEv (unresolvedMsg version)],
        .error (.exited (unresolvedMsg version))) := by
  unfold getExactVersionM
  rw [h]

theorem mem_listReleasesM_log {env : Env} {b : Bool} {o r : String} {e : Ev}
    (he : e ∈ (listReleasesM env b o r).1) :
    (∃ u, e = Ev.fetchEv u) ∨ ∃ m, e = Ev.failedEv m := by
  cases b with
  | true => rw [listReleasesM_auth] at he; cases he
  | false =>
    cases hF : env.unauthFetch with
    | error m =>
      rw [listReleasesM_fetch_err o r hF] at he
      simp at he
      exact .inl ⟨_, he⟩
    | ok p =>
      cases hP : env.unauthParse p with
      | ok rs =>
        rw [listReleasesM_parse_ok o r hF hP] at he
        simp at he
        exact .inl ⟨_, he⟩
      | error ex =>
        rw [listReleasesM_parse_err o r hF hP] at he
        simp at he
        rcases he with he | he
        · exact .inl ⟨_, he⟩
        · exact .inr ⟨_, he⟩

theorem mem_getExactVersionM_log {releases : List Release} {version : String}
    {e : Ev} (he : e ∈ (getExactVersionM releases version).1) :
    ∃ m, e = Ev.failedEv m := by
  unfold getExactVersionM at he
  cases h : maxSatisfying (validVersions releases)
      (if version = "latest" then "*" else version) with
  | some v => rw [h] at he; cases he
  | none =>
    rw [h] at he
    simp at he
    exact ⟨_, he⟩

theorem mem_resolveStep_log {env : Env} {e : Ev}
    (he : e ∈ (resolveStep env).1) :
    (∃ u, e = Ev.fetchEv u) ∨ ∃ m, e = Ev.failedEv m := by
  simp only [resolveStep] at he
  rcases hL : listReleasesM env (env.token ≠ "") "typst-community" "utpm"
    with ⟨l₁, rel⟩
  rw [hL] at he
  cases rel with
  | error f =>
    simp only at he
    exact mem_listReleasesM_log (show e ∈ (listReleasesM env (env.token ≠ "")
      "typst-community" "utpm").1 by rw [hL]; exact he)
  | ok releases =>
    simp only at he
    rcases hG : getExactVersionM releases
      (if env.versionIn = "" then "latest" else env.versionIn) with ⟨l₂, ve⟩
    rw [hG] at he
    simp only [List.mem_append] at he
    rcases he with he | he
    · exact mem_listReleasesM_log (show e ∈ (listReleasesM env
        (env.token ≠ "") "typst-community" "utpm").1 by rw [hL]; exact he)
    · exact .inr (mem_getExactVersionM_log (show e ∈ (getExactVersionM
        releases (if env.versionIn = "" then "latest" else
          env.versionIn)).1 by rw [hG]; exact he))

theorem mem_tryCandidates_log {env : Env} {version archiveExt : String} :
    ∀ {cs : List String} {d₀ : Option String} {e : Ev},
      e ∈ (tryCandidates env version archiveExt cs d₀).1 →
      ∃ u, e = Ev.downloadEv u := by
  intro cs
  induction cs with
  | nil => intro d₀ e he; cases he
  | cons c rest IH =>
    intro d₀ e he
    simp only [tryCandidates] at he
    cases hD : env.download (assetUrl version c archiveExt) with
    | error m =>
      simp only [hD] at he
      rcases List.mem_cons.mp he with rfl | he'
      · exact ⟨_, rfl⟩
      · exact IH he'
    | ok p =>
      simp only [hD] at he
      by_cases hV : env.fileExists p ∧ env.fileSize p > 0
      · rw [if_pos hV] at he
        rcases List.mem_cons.mp he with rfl | he'
        · exact ⟨_, rfl⟩
        · cases he'
      · rw [if_neg hV] at he
        rcases List.mem_cons.mp he with rfl | he'
        · exact ⟨_, rfl⟩
        · exact IH he'

theorem dl_unsupported {env : Env} (v : String)
    (h : targetsLookup (env.platform ++ "," ++ env.arch) = none) :
    downloadAndCacheUtpmM env v =
      ([Ev.failedEv (unsupportedMsg env.platform env.arch)],
        .error (.exited (unsupportedMsg env.platform env.arch))) := by
  simp only [downloadAndCacheUtpmM, h]

theorem dl_noTarget {env : Env} {v : String} {pts : List String}
    {log : List Ev} {d : Option String}
    (hPT : targetsLookup (env.platform ++ "," ++ env.arch) = some pts)
    (htc : tryCandidates env v (archiveExtOf env) pts none = (log, d, none)) :
    downloadAndCacheUtpmM env v =
      (log ++ [Ev.failedEv (noTargetMsg v)],
        .error (.exited (noTargetMsg v))) := by
  simp only [downloadAndCacheUtpmM, hPT, htc]

theorem dl_extract_err {env : Env} {v : String} {pts : List String}
    {log : List Ev} {dl tg m : String}
    (hPT : targetsLookup (env.platform ++ "," ++ env.arch) = some pts)
    (htc : tryCandidates env v (archiveExtOf env) pts none =
      (log, some dl, some tg))
    (hex : extractArchive env dl = .error m) :
    downloadAndCacheUtpmM env v = (log, .error (.thrown m)) := by
  simp only [downloadAndCacheUtpmM, hPT, htc, hex]

theorem dl_binMissing {env : Env} {v : String} {pts : List String}
    {log : List Ev} {dl tg ex : String}
    (hPT : targetsLookup (env.platform ++ "," ++ env.arch) = some pts)
    (htc : tryCandidates env v (archiveExtOf env) pts none =
      (log, some dl, some tg))
    (hex : extractArchive env dl = .ok ex)
    (hbin : env.fileExists (ex ++ "/" ++ binaryNameOf env) = false) :
    downloadAndCacheUtpmM env v =
      (log ++ [Ev.failedEv (binMissingMsg (ex ++ "/" ++ binaryNameOf env))],
        .error (.exited (binMissingMsg (ex ++ "/" ++ binaryNameOf env)))) := by
  simp only [downloadAndCacheUtpmM, hPT, htc, hex, hbin]
  simp

theorem dl_ok {env : Env} {v : String} {pts : List String}
    {log : List Ev} {dl tg ex : String}
    (hPT : targetsLookup (env.platform ++ "," ++ env.arch) = some pts)
    (htc : tryCandidates env v (archiveExtOf env) pts none =
      (log, some dl, some tg))
    (hex : extractArchive env dl = .ok ex)
    (hbin : env.fileExists (ex ++ "/" ++ binaryNameOf env) = true) :
    downloadAndCacheUtpmM env v =
      (log ++ [Ev.cacheRegEv "utpm" v ex], .ok (env.cacheDir ex "utpm" v)) := by
  simp only [downloadAndCacheUtpmM, hPT, htc, hex, hbin]
  simp

theorem resolveStep_of_list_err {env : Env} {l : List Ev} {f : Failure}
    (h : listReleasesM env (env.token ≠ "") "typst-community" "utpm" =
      (l, .error f)) :
    resolveStep env = (l, .error f) := by
  simp only [resolveStep, h]

theorem resolveStep_of_list_ok {env : Env} {l l₂ : List Ev}
    {rs : List Release} {ve : Except Failure String}
    (h : listReleasesM env (env.token ≠ "") "typst-community" "utpm" =
      (l, .ok rs))
    (hG : getExactVersionM rs
      (if env.versionIn = "" then "latest" else env.versionIn) = (l₂, ve)) :
    resolveStep env = (l ++ l₂, ve) := by
  simp only [resolveStep, h, hG]

theorem runM_resolve_err {env : Env} {l₁ : List Ev} {f : Failure}
    (h : resolveStep env = (l₁, .error f)) :
    runM env = (l₁ ++ catchLog f, true) := by
  simp only [runM, h]

theorem runM_hit {env : Env} {l₁ : List Ev} {r : String}
    (h : resolveStep env = (l₁, .ok r)) (hf : env.cacheFind r ≠ "") :
    runM env = (l₁ ++ [Ev.outputEv "cache-hit" "true",
      Ev.addPathEv (env.cacheFind r), Ev.outputEv "version" r], false) := by
  simp only [runM, h, hf]
  simp [hf]

theorem runM_miss_ok {env : Env} {l₁ l₃ : List Ev} {r p : String}
    (h : resolveStep env = (l₁, .ok r)) (hf : env.cacheFind r = "")
    (hd : downloadAndCacheUtpmM env r = (l₃, .ok p)) :
    runM env = (l₁ ++ Ev.outputEv "cache-hit" "false" :: l₃ ++
      [Ev.addPathEv p, Ev.outputEv "version" r], false) := by
  simp only [runM, h, hf, hd]
  simp

theorem runM_miss_err {env : Env} {l₁ l₃ : List Ev} {r : String}
    {f : Failure}
    (h : resolveStep env = (l₁, .ok r)) (hf : env.cacheFind r = "")
    (hd : downloadAndCacheUtpmM env r = (l₃, .error f)) :
    runM env = (l₁ ++ Ev.outputEv "cache-hit" "false" :: l₃ ++ catchLog f,
      true) := by
  simp only [runM, h, hf, hd]
  simp

theorem dl_noTarget2 {env : Env} {v : String} {pts : List String}
    {log : List Ev} {tg : String}
    (hPT : targetsLookup (env.platform ++ "," ++ env.arch) = some pts)
    (htc : tryCandidates env v (archiveExtOf env) pts none =
      (log, none, some tg)) :
    downloadAndCacheUtpmM env v =
      (log ++ [Ev.failedEv (noTargetMsg v)],
        .error (.exited (noTargetMsg v))) := by
  simp only [downloadAndCacheUtpmM, hPT, htc]

theorem mem_dl_log {env : Env} {v : String} {e : Ev}
    (he : e ∈ (downloadAndCacheUtpmM env v).1) :
    (∃ u, e = Ev.downloadEv u) ∨ (∃ m, e = Ev.failedEv m) ∨
      ∃ d, e = Ev.cacheRegEv "utpm" v d ∧
        env.fileExists (d ++ "/" ++ binaryNameOf env) = true := by
  cases hPT : targetsLookup (env.platform ++ "," ++ env.arch) with
  | none =>
    rw [dl_unsupported v hPT] at he
    simp at he
    exact .inr (.inl ⟨_, he⟩)
  | some pts =>
    rcases htc : tryCandidates env v (archiveExtOf env) pts none
      with ⟨log, d, t⟩
    have hmem : ∀ x ∈ log, ∃ u, x = Ev.downloadEv u := by
      intro x hx
      exact mem_tryCandidates_log (show x ∈ (tryCandidates env v
        (archiveExtOf env) pts none).1 by rw [htc]; exact hx)
    cases t with
    | none =>
      rw [dl_noTarget hPT htc] at he
      rcases List.mem_append.mp he with he' | he'
      · exact .inl (hmem e he')
      · simp at he'
        exact .inr (.inl ⟨_, he'⟩)
    | some tg =>
      cases d with
      | none =>
        rw [dl_noTarget2 hPT htc] at he
        rcases List.mem_append.mp he with he' | he'
        · exact .inl (hmem e he')
        · simp at he'
          exact .inr (.inl ⟨_, he'⟩)
      | some dl =>
        cases hex : extractArchive env dl with
        | error m =>
          rw [dl_extract_err hPT htc hex] at he
          exact .inl (hmem e he)
        | ok ex =>
          cases hbin : env.fileExists (ex ++ "/" ++ binaryNameOf env) with
          | false =>
            rw [dl_binMissing hPT htc hex hbin] at he
            rcases List.mem_append.mp he with he' | he'
            · exact .inl (hmem e he')
            · simp at he'
              exact .inr (.inl ⟨_, he'⟩)
          | true =>
            rw [dl_ok hPT htc hex hbin] at he
            rcases List.mem_append.mp he with he' | he'
            · exact .inl (hmem e he')
            · simp at he'
              exact .inr (.inr ⟨ex, he', hbin⟩)

theorem dl_err_no_reg {env : Env} {v : String} {f : Failure}
    (hf : (downloadAndCacheUtpmM env v).2 = .error f) :
    ∀ t ver d, Ev.cacheRegEv t ver d ∉ (downloadAndCacheUtpmM env v).1 := by
  intro t ver d hmem
  cases hPT : targetsLookup (env.platform ++ "," ++ env.arch) with
  | none =>
    rw [dl_unsupported v hPT] at hmem
    simp at hmem
  | some pts =>
    rcases htc : tryCandidates env v (archiveExtOf env) pts none
      with ⟨log, dopt, topt⟩
    have hnolog : Ev.cacheRegEv t ver d ∉ log := by
      intro hx
      rcases mem_tryCandidates_log (show Ev.cacheRegEv t ver d ∈
        (tryCandidates env v (archiveExtOf env) pts none).1 by
          rw [htc]; exact hx) with ⟨u, hu⟩
      cases hu
    cases topt with
    | none =>
      rw [dl_noTarget hPT htc] at hmem
      rcases List.mem_append.mp hmem with h' | h'
      · exact hnolog h'
      · simp at h'
    | some tg =>
      cases dopt with
      | none =>
        rw [dl_noTarget2 hPT htc] at hmem
        rcases List.mem_append.mp hmem with h' | h'
        · exact hnolog h'
        · simp at h'
      | some dl =>
        cases hex : extractArchive env dl with
        | error m =>
          rw [dl_extract_err hPT htc hex] at hmem
          exact hnolog hmem
        | ok ex =>
          cases hbin : env.fileExists (ex ++ "/" ++ binaryNameOf env) with
          | false =>
            rw [dl_binMissing hPT htc hex hbin] at hmem
            rcases List.mem_append.mp hmem with h' | h'
            · exact hnolog h'
            · simp at h'
          | true =>
            rw [dl_ok hPT htc hex hbin] at hf
            simp at hf

/-! Uniqueness of the platform-key decomposition. -/

theorem split_at_char :
    ∀ (p : List Char) (x b y : List Char) (c : Char), c ∉ p → c ∉ x →
      p ++ c :: b = x ++ c :: y → p = x ∧ b = y
  | [], x, b, y, c, _, hx, h => by
    cases x with
    | nil => simpa using h
    | cons d xs =>
      injection h with h₁ h₂
      exact absurd (h₁ ▸ List.mem_cons_self ..) hx
  | e :: p', x, b, y, c, hp, hx, h => by
    cases x with
    | nil =>
      injection h with h₁ h₂
      exact absurd (h₁ ▸ List.mem_cons_self ..) hp
    | cons d xs =>
      injection h with h₁ h₂
      subst h₁
      have IH := split_at_char p' xs b y c
        (fun hc => hp (List.mem_cons_of_mem _ hc))
        (fun hc => hx (List.mem_cons_of_mem _ hc)) h₂
      exact ⟨by rw [IH.1], IH.2⟩

theorem key_decomp {os arch x y : String} (hx : ',' ∉ x.data)
    (hy : ',' ∉ y.data) (h : os ++ "," ++ arch = x ++ "," ++ y) :
    os = x ∧ arch = y := by
  have hd : os.data ++ ',' :: arch.data = x.data ++ ',' :: y.data := by
    have := congrArg String.data h
    simpa using this
  have hos : ',' ∉ os.data := by
    intro hc
    have hcnt := congrArg (fun l => List.count ',' l) hd
    simp only [List.count_append, List.count_cons_self,
      List.count_eq_zero.mpr hx, List.count_eq_zero.mpr hy] at hcnt
    have h1 : 0 < List.count ',' os.data := List.count_pos_iff.mpr hc
    omega
  have := split_at_char os.data x.data arch.data y.data ',' hos hx hd
  refine ⟨?_, ?_⟩
  · cases os; cases x; simp_all
  · cases arch; cases y; simp_all

theorem targetsLookup_keys {key : String} {l : List String}
    (h : targetsLookup key = some l) :
    key = "darwin,arm64" ∨ key = "darwin,x64" ∨ key = "linux,x64" ∨
      key = "linux,arm64" ∨ key = "win32,x64" ∨ key = "win32,arm64" := by
  simp only [targetsLookup, targetsTable, List.lookup] at h
  by_cases h₁ : key = "darwin,arm64"
  · exact .inl h₁
  rw [beq_eq_false_iff_ne.mpr h₁] at h
  by_cases h₂ : key = "darwin,x64"
  · exact .inr (.inl h₂)
  rw [beq_eq_false_iff_ne.mpr h₂] at h
  by_cases h₃ : key = "linux,x64"
  · exact .inr (.inr (.inl h₃))
  rw [beq_eq_false_iff_ne.mpr h₃] at h
  by_cases h₄ : key = "linux,arm64"
  · exact .inr (.inr (.inr (.inl h₄)))
  rw [beq_eq_false_iff_ne.mpr h₄] at h
  by_cases h₅ : key = "win32,x64"
  · exact .inr (.inr (.inr (.inr (.inl h₅))))
  rw [beq_eq_false_iff_ne.mpr h₅] at h
  by_cases h₆ : key = "win32,arm64"
  · exact .inr (.inr (.inr (.inr (.inr h₆))))
  rw [beq_eq_false_iff_ne.mpr h₆] at h
  simp at h

theorem targetsLookup_pair {os arch : String} {l : List String}
    (h : targetsLookup (os ++ "," ++ arch) = some l) :
    (os, arch) ∈ supportedPairs ∧ l ≠ [] := by
  rcases targetsLookup_keys h with hk | hk | hk | hk | hk | hk <;>
    [ (have hd := key_decomp (x := "darwin") (y := "arm64")
        (by decide) (by decide) hk);
      (have hd := key_decomp (x := "darwin") (y := "x64")
        (by decide) (by decide) hk);
      (have hd := key_decomp (x := "linux") (y := "x64")
        (by decide) (by decide) hk);
      (have hd := key_decomp (x := "linux") (y := "arm64")
        (by decide) (by decide) hk);
      (have hd := key_decomp (x := "win32") (y := "x64")
        (by decide) (by decide) hk);
      (have hd := key_decomp (x := "win32") (y := "arm64")
        (by decide) (by decide) hk)] <;>
    rw [hk] at h <;>
    rw [hd.1, hd.2] <;>
    refine ⟨by simp [supportedPairs], ?_⟩ <;>
    · intro hl
      rw [hl] at h
      revert h
      decide

/-! Claim theorems. -/

theorem mem_validVersions_isSome {R : List Release} {w : String}
    (hw : w ∈ validVersions R) : (parseSemver w).isSome :=
  by simpa using (List.mem_filter.mp hw).2

theorem testStr_star (w : String) :
    testStr w [[]] = true ↔
      ∃ pw, parseSemver w = some pw ∧ pw.prerelease = [] := by
  unfold testStr
  cases hp : parseSemver w with
  | none => simp
  | some pw =>
    simp [testRange, testSet, List.isEmpty_iff]

/-- C2 counterexample: for the release list whose only tag is
`v1.0.0-beta` (a valid prerelease version), resolution under `"latest"`
does not succeed: the run fails fatally, because the `*` range that
`"latest"` is mapped to excludes prerelease versions. -/
theorem claim_C2_latest_counterexample :
    (getExactVersionM [⟨"v1.0.0-beta"⟩] "latest").2 =
      .error (.exited (unresolvedMsg "latest")) := rfl

/-- C2 amended: `"latest"` is treated as the range `*`, which under
node-semver's default rule matches exactly the valid versions without a
prerelease; resolution under `"latest"` returns a maximum non-prerelease
valid version and fails fatally exactly when every valid version is a
prerelease. -/
theorem claim_C2_latest_amended (R : List Release) :
    (∀ v, (getExactVersionM R "latest").2 = .ok v →
      v ∈ validVersions R ∧
        (∀ pv, parseSemver v = some pv → pv.prerelease = []) ∧
        ∀ w ∈ validVersions R,
          (∀ pw, parseSemver w = some pw → pw.prerelease = []) →
            strLe w v) ∧
    ((∃ msg, (getExactVersionM R "latest").2 = .error (.exited msg)) ↔
      ∀ w ∈ validVersions R, ∀ pw, parseSemver w = some pw →
        pw.prerelease ≠ []) := by
  have hms : maxSatisfying (validVersions R)
      (if "latest" = "latest" then "*" else "latest") =
      (validVersions R).foldl (maxStep [[]]) none := rfl
  have hsat : ∀ w ∈ validVersions R, (testStr w [[]] = true ↔
      ∀ pw, parseSemver w = some pw → pw.prerelease = []) := by
    intro w hw
    rcases Option.isSome_iff_exists.mp (mem_validVersions_isSome hw)
      with ⟨pw, hpw⟩
    rw [testStr_star]
    constructor
    · rintro ⟨pw', hpw', hpre⟩ pv hpv
      rw [hpw'] at hpv
      cases hpv
      exact hpre
    · intro hall
      exact ⟨pw, hpw, hall pw hpw⟩
  cases hF : (validVersions R).foldl (maxStep [[]]) none with
  | some m =>
    rw [getExactVersionM_ok (by rw [hms, hF])]
    refine ⟨fun v hv => ?_, ?_, fun hall => absurd hF ?_⟩
    · simp only [Except.ok.injEq] at hv
      subst hv
      rcases foldl_maxStep_mem (validVersions R) none m hF
        with h' | ⟨hm, ht⟩
      · cases h'
      · have hdom := foldl_maxStep_dom (validVersions R) none m
          (fun k hk => nomatch hk) hF
        exact ⟨hm, (hsat m hm).mp ht,
          fun w hw hpre => hdom.1 w hw ((hsat w hw).mpr hpre)⟩
    · rintro ⟨msg, hmsg⟩
      simp at hmsg
    · rw [foldl_maxStep_of_allfail _ none ?_]
      · simp
      · intro w hw
        rcases Option.isSome_iff_exists.mp (mem_validVersions_isSome hw)
          with ⟨pw, hpw⟩
        rw [Bool.eq_false_iff]
        intro htrue
        exact hall w hw pw hpw (((hsat w hw).mp htrue) pw hpw)
  | none =>
    rw [getExactVersionM_err (by rw [hms, hF])]
    refine ⟨fun v hv => by simp at hv, fun _ w hw pw hpw hpre => ?_,
      fun _ => ⟨_, rfl⟩⟩
    have hfail := (foldl_maxStep_none_iff _).mp hF w hw
    rw [Bool.eq_false_iff] at hfail
    exact hfail ((hsat w hw).mpr (fun pv hpv => by
      rw [hpw] at hpv; cases hpv; exact hpre))

/-- Witness for the amended C2 at a concrete input: for releases
`v1.0.0-beta, v0.9.0` under `"latest"`, the resolver picks `0.9.0` (the
highest non-prerelease version), which is among the valid versions. -/
theorem claim_C2_latest_amended_witness :
    "0.9.0" ∈ validVersions [⟨"v1.0.0-beta"⟩, ⟨"v0.9.0"⟩] :=
  ((claim_C2_latest_amended [⟨"v1.0.0-beta"⟩, ⟨"v0.9.0"⟩]).1 "0.9.0" rfl).1

/-- C5: the platform mapping is a fixed pure lookup: a key built from any
(OS, architecture) pair succeeds only for the six declared pairs, every
declared pair yields a non-empty ordered candidate list, and any other
pair makes the run fail fatally as an unsupported platform instead of
continuing with an empty candidate list. -/
theorem claim_C5_platform_mapping :
    (∀ (os arch : String) (l : List String),
      targetsLookup (os ++ "," ++ arch) = some l →
        (os, arch) ∈ supportedPairs ∧ l ≠ []) ∧
    (∀ p ∈ supportedPairs,
      ∃ l, targetsLookup (p.1 ++ "," ++ p.2) = some l ∧ l ≠ []) ∧
    (∀ (env : Env) (v : String), (env.platform, env.arch) ∉ supportedPairs →
      downloadAndCacheUtpmM env v =
        ([Ev.failedEv (unsupportedMsg env.platform env.arch)],
          .error (.exited (unsupportedMsg env.platform env.arch)))) := by
  refine ⟨fun os arch l h => targetsLookup_pair h, ?_, ?_⟩
  · intro p hp
    rcases (by simpa [supportedPairs] using hp :
        p = ("darwin", "arm64") ∨ p = ("darwin", "x64") ∨
        p = ("linux", "x64") ∨ p = ("linux", "arm64") ∨
        p = ("win32", "x64") ∨ p = ("win32", "arm64"))
      with rfl | rfl | rfl | rfl | rfl | rfl <;>
      exact ⟨_, rfl, by decide⟩
  · intro env v hp
    cases hPT : targetsLookup (env.platform ++ "," ++ env.arch) with
    | some l => exact absurd (targetsLookup_pair hPT).1 hp
    | none => exact dl_unsupported v hPT

/-- Witness for C5 at a concrete input: on the unsupported pair
(plan9, x64) the acquirer fails fatally with the unsupported-platform
diagnostic. -/
theorem claim_C5_platform_mapping_witness :
    downloadAndCacheUtpmM { baseEnv with platform := "plan9" } "1.0.0" =
      ([Ev.failedEv (unsupportedMsg "plan9" "x64")],
        .error (.exited (unsupportedMsg "plan9" "x64"))) :=
  claim_C5_platform_mapping.2.2 { baseEnv with platform := "plan9" }
    "1.0.0" (by decide)

/-- C9: the candidate ordering is fixed: (linux, x64) maps to exactly
`x86_64-unknown-linux-musl` then `x86_64-unknown-linux-gnu`, and every
other supported pair maps to exactly one candidate, so the fallback search
can only apply on linux/x64. -/
theorem claim_C9_target_ordering :
    targetsLookup ("linux" ++ "," ++ "x64") =
      some ["x86_64-unknown-linux-musl", "x86_64-unknown-linux-gnu"] ∧
    ∀ p ∈ supportedPairs, p ≠ ("linux", "x64") →
      ∃ t, targetsLookup (p.1 ++ "," ++ p.2) = some [t] := by
  refine ⟨rfl, ?_⟩
  intro p hp hne
  rcases (by simpa [supportedPairs] using hp :
      p = ("darwin", "arm64") ∨ p = ("darwin", "x64") ∨
      p = ("linux", "x64") ∨ p = ("linux", "arm64") ∨
      p = ("win32", "x64") ∨ p = ("win32", "arm64"))
    with rfl | rfl | rfl | rfl | rfl | rfl
  · exact ⟨_, rfl⟩
  · exact ⟨_, rfl⟩
  · exact absurd rfl hne
  · exact ⟨_, rfl⟩
  · exact ⟨_, rfl⟩
  · exact ⟨_, rfl⟩

/-- Witness for C9 at a concrete input: (darwin, arm64) has exactly one
candidate target. -/
theorem claim_C9_target_ordering_witness :
    ∃ t, targetsLookup ("darwin" ++ "," ++ "arm64") = some [t] :=
  claim_C9_target_ordering.2 ("darwin", "arm64") (by decide) (by decide)

theorem candOk_err {env : Env} {v ae c m : String}
    (hD : env.download (assetUrl v c ae) = .error m) :
    candOk env v ae c = false := by
  unfold candOk
  rw [hD]

theorem candOk_ok {env : Env} {v ae c p : String}
    (hD : env.download (assetUrl v c ae) = .ok p) :
    candOk env v ae c = (env.fileExists p && decide (env.fileSize p > 0)) := by
  unfold candOk
  rw [hD]

theorem tryCandidates_cons_err {env : Env} {v ae c m : String}
    {rest : List String} {d₀ : Option String}
    (hD : env.download (assetUrl v c ae) = .error m) :
    tryCandidates env v ae (c :: rest) d₀ =
      (Ev.downloadEv (assetUrl v c ae) ::
        (tryCandidates env v ae rest d₀).1,
        (tryCandidates env v ae rest d₀).2.1,
        (tryCandidates env v ae rest d₀).2.2) := by
  simp only [tryCandidates, hD]

theorem tryCandidates_cons_hit {env : Env} {v ae c p : String}
    {rest : List String} {d₀ : Option String}
    (hD : env.download (assetUrl v c ae) = .ok p)
    (hV : env.fileExists p ∧ env.fileSize p > 0) :
    tryCandidates env v ae (c :: rest) d₀ =
      ([Ev.downloadEv (assetUrl v c ae)], some p, some c) := by
  simp only [tryCandidates, hD, if_pos hV]

theorem tryCandidates_cons_empty {env : Env} {v ae c p : String}
    {rest : List String} {d₀ : Option String}
    (hD : env.download (assetUrl v c ae) = .ok p)
    (hV : ¬(env.fileExists p ∧ env.fileSize p > 0)) :
    tryCandidates env v ae (c :: rest) d₀ =
      (Ev.downloadEv (assetUrl v c ae) ::
        (tryCandidates env v ae rest (some p)).1,
        (tryCandidates env v ae rest (some p)).2.1,
        (tryCandidates env v ae rest (some p)).2.2) := by
  simp only [tryCandidates, hD, if_neg hV]

theorem candOk_false_of_not_verified {env : Env} {v ae c p : String}
    (hD : env.download (assetUrl v c ae) = .ok p)
    (hV : ¬(env.fileExists p ∧ env.fileSize p > 0)) :
    candOk env v ae c = false := by
  rw [candOk_ok hD]
  cases hA : env.fileExists p
  · simp
  · simp only [Bool.true_and, decide_eq_false_iff_not]
    exact fun hB => hV ⟨hA, hB⟩

theorem tryCandidates_none_iff (env : Env) (v ae : String) :
    ∀ (cs : List String) (d₀ : Option String),
      (tryCandidates env v ae cs d₀).2.2 = none ↔
        ∀ c ∈ cs, candOk env v ae c = false
  | [], d₀ => by simp [tryCandidates]
  | c :: rest, d₀ => by
    cases hD : env.download (assetUrl v c ae) with
    | error m =>
      rw [tryCandidates_cons_err hD]
      have IH := tryCandidates_none_iff env v ae rest d₀
      constructor
      · intro h x hx
        rcases List.mem_cons.mp hx with rfl | hx'
        · exact candOk_err hD
        · exact IH.mp h x hx'
      · intro h
        exact IH.mpr (fun x hx => h x (List.mem_cons_of_mem _ hx))
    | ok p =>
      by_cases hV : env.fileExists p ∧ env.fileSize p > 0
      · rw [tryCandidates_cons_hit hD hV]
        constructor
        · intro h
          cases h
        · intro h
          have hc := h c (List.mem_cons_self ..)
          rw [candOk_ok hD] at hc
          simp [hV.1, hV.2] at hc
      · rw [tryCandidates_cons_empty hD hV]
        have IH := tryCandidates_none_iff env v ae rest (some p)
        constructor
        · intro h x hx
          rcases List.mem_cons.mp hx with rfl | hx'
          · exact candOk_false_of_not_verified hD hV
          · exact IH.mp h x hx'
        · intro h
          exact IH.mpr (fun x hx => h x (List.mem_cons_of_mem _ hx))

theorem tryCandidates_first (env : Env) (v ae : String) :
    ∀ (pre : List String) (c : String) (post : List String)
      (d₀ : Option String),
      (∀ a ∈ pre, candOk env v ae a = false) →
      candOk env v ae c = true →
      ∃ p, env.download (assetUrl v c ae) = .ok p ∧
        env.fileExists p = true ∧ env.fileSize p > 0 ∧
        tryCandidates env v ae (pre ++ c :: post) d₀ =
          ((pre ++ [c]).map (fun t => Ev.downloadEv (assetUrl v t ae)),
            some p, some c)
  | [], c, post, d₀, _, hc => by
    cases hD : env.download (assetUrl v c ae) with
    | error m => rw [candOk_err hD] at hc; cases hc
    | ok p =>
      rw [candOk_ok hD] at hc
      simp only [Bool.and_eq_true, decide_eq_true_eq] at hc
      refine ⟨p, rfl, hc.1, hc.2, ?_⟩
      rw [List.nil_append, tryCandidates_cons_hit hD ⟨hc.1, hc.2⟩]
      simp
  | a :: pre', c, post, d₀, hpre, hc => by
    have ha : candOk env v ae a = false := hpre a (List.mem_cons_self ..)
    have hpre' : ∀ x ∈ pre', candOk env v ae x = false :=
      fun x hx => hpre x (List.mem_cons_of_mem _ hx)
    cases hD : env.download (assetUrl v a ae) with
    | error m =>
      rcases tryCandidates_first env v ae pre' c post d₀ hpre' hc
        with ⟨p, hp, hA, hB, htc⟩
      refine ⟨p, hp, hA, hB, ?_⟩
      rw [List.cons_append, tryCandidates_cons_err hD, htc]
      simp
    | ok q =>
      have hV : ¬(env.fileExists q ∧ env.fileSize q > 0) := by
        intro hv
        rw [candOk_ok hD] at ha
        simp [hv.1, hv.2] at ha
      rcases tryCandidates_first env v ae pre' c post (some q) hpre' hc
        with ⟨p, hp, hA, hB, htc⟩
      refine ⟨p, hp, hA, hB, ?_⟩
      rw [List.cons_append, tryCandidates_cons_empty hD, htc]
      · simp
      · exact hV

theorem tryCandidates_all_fail (env : Env) (v ae : String) :
    ∀ (cs : List String) (d₀ : Option String),
      (∀ c ∈ cs, candOk env v ae c = false) →
      ∃ d', tryCandidates env v ae cs d₀ =
        (cs.map (fun t => Ev.downloadEv (assetUrl v t ae)), d', none)
  | [], d₀, _ => ⟨d₀, rfl⟩
  | c :: rest, d₀, hall => by
    have hc : candOk env v ae c = false := hall c (List.mem_cons_self ..)
    have hrest : ∀ x ∈ rest, candOk env v ae x = false :=
      fun x hx => hall x (List.mem_cons_of_mem _ hx)
    cases hD : env.download (assetUrl v c ae) with
    | error m =>
      rcases tryCandidates_all_fail env v ae rest d₀ hrest with ⟨d', htc⟩
      refine ⟨d', ?_⟩
      rw [tryCandidates_cons_err hD, htc]
      simp
    | ok p =>
      have hV : ¬(env.fileExists p ∧ env.fileSize p > 0) := by
        intro hv
        rw [candOk_ok hD] at hc
        simp [hv.1, hv.2] at hc
      rcases tryCandidates_all_fail env v ae rest (some p) hrest
        with ⟨d', htc⟩
      refine ⟨d', ?_⟩
      rw [tryCandidates_cons_empty hD hV, htc]
      simp

/-- C4: the acquirer attempts candidates strictly in list order; it binds
to the first candidate whose download succeeds with an existing, non-empty
file (earlier failures never make it fail when a later candidate
succeeds); the search comes up empty exactly when every candidate fails to
download or verify, and only then does the acquirer fail fatally with the
no-usable-artifact diagnostic. -/
theorem claim_C4_acquisition_fallback (env : Env) (v : String) :
    (∀ (cs : List String) (d₀ : Option String),
      (tryCandidates env v (archiveExtOf env) cs d₀).2.2 = none ↔
        ∀ c ∈ cs, candOk env v (archiveExtOf env) c = false) ∧
    (∀ (pre : List String) (c : String) (post : List String)
        (d₀ : Option String),
      (∀ a ∈ pre, candOk env v (archiveExtOf env) a = false) →
      candOk env v (archiveExtOf env) c = true →
      ∃ p, env.download (assetUrl v c (archiveExtOf env)) = .ok p ∧
        tryCandidates env v (archiveExtOf env) (pre ++ c :: post) d₀ =
          ((pre ++ [c]).map
            (fun t => Ev.downloadEv (assetUrl v t (archiveExtOf env))),
            some p, some c)) ∧
    (∀ pts, targetsLookup (env.platform ++ "," ++ env.arch) = some pts →
      (∀ c ∈ pts, candOk env v (archiveExtOf env) c = false) →
      downloadAndCacheUtpmM env v =
        ((pts.map
          (fun t => Ev.downloadEv (assetUrl v t (archiveExtOf env)))) ++
          [Ev.failedEv (noTargetMsg v)], .error (.exited (noTargetMsg v)))) := by
  refine ⟨tryCandidates_none_iff env v (archiveExtOf env), ?_, ?_⟩
  · intro pre c post d₀ hpre hc
    rcases tryCandidates_first env v (archiveExtOf env) pre c post d₀
      hpre hc with ⟨p, hp, _, _, htc⟩
    exact ⟨p, hp, htc⟩
  · intro pts hPT hall
    rcases tryCandidates_all_fail env v (archiveExtOf env) pts none hall
      with ⟨d', htc⟩
    exact dl_noTarget hPT htc

/-- Witness for C4 at a concrete input: with candidates [musl, gnu] where
the musl download fails and the gnu download succeeds and verifies, the
loop binds to the gnu target. -/
theorem claim_C4_acquisition_fallback_witness :
    (tryCandidates fallbackEnv "1.0.0" (archiveExtOf fallbackEnv)
      ["x86_64-unknown-linux-musl", "x86_64-unknown-linux-gnu"]
      none).2.2 = some "x86_64-unknown-linux-gnu" := by
  obtain ⟨p, _, htc⟩ := (claim_C4_acquisition_fallback fallbackEnv
    "1.0.0").2.1 ["x86_64-unknown-linux-musl"] "x86_64-unknown-linux-gnu"
    [] none (by decide) (by decide)
  show (tryCandidates fallbackEnv "1.0.0" (archiveExtOf fallbackEnv)
    (["x86_64-unknown-linux-musl"] ++ "x86_64-unknown-linux-gnu" :: [])
    none).2.2 = some "x86_64-unknown-linux-gnu"
  rw [htc]

theorem runM_cases (env : Env) :
    (∃ l₁ f, resolveStep env = (l₁, .error f) ∧
      runM env = (l₁ ++ catchLog f, true)) ∨
    (∃ l₁ r, resolveStep env = (l₁, .ok r) ∧
      ((env.cacheFind r ≠ "" ∧
        runM env = (l₁ ++ [Ev.outputEv "cache-hit" "true",
          Ev.addPathEv (env.cacheFind r), Ev.outputEv "version" r],
          false)) ∨
       (env.cacheFind r = "" ∧
        ((∃ l₃ f, downloadAndCacheUtpmM env r = (l₃, .error f) ∧
            runM env = (l₁ ++ Ev.outputEv "cache-hit" "false" :: l₃ ++
              catchLog f, true)) ∨
         (∃ l₃ p, downloadAndCacheUtpmM env r = (l₃, .ok p) ∧
            runM env = (l₁ ++ Ev.outputEv "cache-hit" "false" :: l₃ ++
              [Ev.addPathEv p, Ev.outputEv "version" r], false)))))) := by
  rcases hR : resolveStep env with ⟨l₁, ve⟩
  cases ve with
  | error f => exact .inl ⟨l₁, f, rfl, runM_resolve_err hR⟩
  | ok r =>
    by_cases hf : env.cacheFind r = ""
    · rcases hd : downloadAndCacheUtpmM env r with ⟨l₃, ce⟩
      cases ce with
      | error f =>
        exact .inr ⟨l₁, r, rfl, .inr ⟨hf, .inl ⟨l₃, f, hd,
          runM_miss_err hR hf hd⟩⟩⟩
      | ok p =>
        exact .inr ⟨l₁, r, rfl, .inr ⟨hf, .inr ⟨l₃, p, hd,
          runM_miss_ok hR hf hd⟩⟩⟩
    · exact .inr ⟨l₁, r, rfl, .inl ⟨hf, runM_hit hR hf⟩⟩

theorem decide_token_empty {env : Env} (htok : env.token = "") :
    (decide (env.token ≠ "")) = false := by
  rw [htok]
  decide

theorem resolveStep_unauth_fetch {env : Env} (htok : env.token = "") :
    ∃ l', (resolveStep env).1 =
      Ev.fetchEv (releasesUrl "typst-community" "utpm") :: l' := by
  have hb := decide_token_empty htok
  cases hF : env.unauthFetch with
  | error m =>
    have h' : listReleasesM env (env.token ≠ "") "typst-community"
        "utpm" = ([Ev.fetchEv (releasesUrl "typst-community" "utpm")],
          .error (.thrown m)) := by
      rw [hb]
      exact listReleasesM_fetch_err "typst-community" "utpm" hF
    rw [resolveStep_of_list_err h']
    exact ⟨[], rfl⟩
  | ok p =>
    cases hP : env.unauthParse p with
    | error e =>
      have h' : listReleasesM env (env.token ≠ "") "typst-community"
          "utpm" = ([Ev.fetchEv (releasesUrl "typst-community" "utpm"),
            Ev.failedEv (rateLimitMsg "typst-community" "utpm" e)],
            .error (.exited (rateLimitMsg "typst-community" "utpm" e))) := by
        rw [hb]
        exact listReleasesM_parse_err "typst-community" "utpm" hF hP
      rw [resolveStep_of_list_err h']
      exact ⟨_, rfl⟩
    | ok rs =>
      have h' : listReleasesM env (env.token ≠ "") "typst-community"
          "utpm" = ([Ev.fetchEv (releasesUrl "typst-community" "utpm")],
            .ok rs) := by
        rw [hb]
        exact listReleasesM_parse_ok "typst-community" "utpm" hF hP
      rcases hG : getExactVersionM rs
        (if env.versionIn = "" then "latest" else env.versionIn)
        with ⟨l₂, ve⟩
      rw [resolveStep_of_list_ok h' hG]
      exact ⟨l₂, rfl⟩

theorem tryCandidates_authPages (env : Env) (pages : List (List Release))
    (v ae : String) :
    ∀ (cs : List String) (d₀ : Option String),
      tryCandidates { env with authPages := pages } v ae cs d₀ =
        tryCandidates env v ae cs d₀
  | [], _ => rfl
  | c :: rest, d₀ => by
    cases hD : env.download (assetUrl v c ae) with
    | error m =>
      rw [@tryCandidates_cons_err { env with authPages := pages }
          v ae c m rest d₀ hD,
        tryCandidates_cons_err hD,
        tryCandidates_authPages env pages v ae rest d₀]
    | ok p =>
      by_cases hV : env.fileExists p ∧ env.fileSize p > 0
      · rw [@tryCandidates_cons_hit { env with authPages := pages }
            v ae c p rest d₀ hD hV,
          tryCandidates_cons_hit hD hV]
      · rw [@tryCandidates_cons_empty { env with authPages := pages }
            v ae c p rest d₀ hD hV,
          tryCandidates_cons_empty hD hV,
          tryCandidates_authPages env pages v ae rest (some p)]

theorem downloadAndCacheUtpmM_authPages (env : Env)
    (pages : List (List Release)) (v : String) :
    downloadAndCacheUtpmM { env with authPages := pages } v =
      downloadAndCacheUtpmM env v := by
  simp only [downloadAndCacheUtpmM, archiveExtOf, binaryNameOf,
    extractArchive, tryCandidates_authPages]

theorem resolveStep_authPages {env : Env} (pages : List (List Release))
    (htok : env.token = "") :
    resolveStep { env with authPages := pages } = resolveStep env := by
  have hb := decide_token_empty htok
  have hb' : (decide (({ env with authPages := pages }).token ≠ "")) =
      false := hb
  simp only [resolveStep, listReleasesM, hb, hb']
  rfl

/-- C10: credential presence is string truthiness: with an empty token
input no authenticated client is used — the run is unchanged under any
replacement of the authenticated pages, exactly as if no token had been
supplied — and the single unauthenticated fetch is performed. -/
theorem claim_C10_empty_token :
    (∀ (env : Env) (pages : List (List Release)), env.token = "" →
      runM { env with authPages := pages } = runM env) ∧
    (∀ env : Env, env.token = "" →
      Ev.fetchEv (releasesUrl "typst-community" "utpm") ∈ (runM env).1) := by
  constructor
  · intro env pages htok
    simp only [runM, resolveStep_authPages pages htok,
      downloadAndCacheUtpmM_authPages]
  · intro env htok
    rcases resolveStep_unauth_fetch htok with ⟨l', hl⟩
    rcases runM_cases env with ⟨l₁, f, hR, hrun⟩ |
        ⟨l₁, r, hR, ⟨_, hrun⟩ | ⟨_, ⟨l₃, f, _, hrun⟩ | ⟨l₃, p, _, hrun⟩⟩⟩ <;>
      · rw [hrun]
        rw [hR] at hl
        simp only at hl
        rw [hl]
        simp

/-- C8: the release lister takes the authenticated paginated path (pages
concatenated in server order) when a credential is present; without one it
performs a single unauthenticated fetch, and an unparseable response is
fatal with a diagnostic naming the API rate limit as the likely cause,
after which the run terminates with failing status (no retry: the log
holds exactly one fetch). -/
theorem claim_C8_release_lister :
    (∀ (env : Env) (o r : String),
      listReleasesM env true o r = ([], .ok env.authPages.flatten)) ∧
    (∀ (env : Env) (o r : String) (p e : String),
      env.unauthFetch = .ok p → env.unauthParse p = .error e →
      listReleasesM env false o r =
        ([Ev.fetchEv (releasesUrl o r), Ev.failedEv (rateLimitMsg o r e)],
          .error (.exited (rateLimitMsg o r e)))) ∧
    (∀ (env : Env) (p e : String), env.token = "" →
      env.unauthFetch = .ok p → env.unauthParse p = .error e →
      (runM env).2 = true) := by
  refine ⟨listReleasesM_auth,
    fun env o r p e hF hP => listReleasesM_parse_err o r hF hP, ?_⟩
  intro env p e htok hF hP
  have hb := decide_token_empty htok
  have h' : listReleasesM env (env.token ≠ "") "typst-community"
      "utpm" = ([Ev.fetchEv (releasesUrl "typst-community" "utpm"),
        Ev.failedEv (rateLimitMsg "typst-community" "utpm" e)],
        .error (.exited (rateLimitMsg "typst-community" "utpm" e))) := by
    rw [hb]
    exact listReleasesM_parse_err "typst-community" "utpm" hF hP
  rw [runM_resolve_err (resolveStep_of_list_err h')]

/-- Witness for C8 at a concrete input: with an empty token and a
response that fails to parse, the run ends in failure. -/
theorem claim_C8_release_lister_witness :
    (runM parseFailEnv).2 = true :=
  claim_C8_release_lister.2.2 parseFailEnv "releases.json"
    "Unexpected token" rfl rfl rfl

/-- Witness for C10 at a concrete input: replacing the authenticated
pages changes nothing when the token is empty. -/
theorem claim_C10_empty_token_witness :
    runM { baseEnv with authPages := [[⟨"v9.9.9"⟩]] } = runM baseEnv :=
  claim_C10_empty_token.1 baseEnv [[⟨"v9.9.9"⟩]] rfl

theorem getExact_exited {rs : List Release} {ver : String} {l : List Ev}
    {m : String}
    (h : getExactVersionM rs ver = (l, .error (.exited m))) :
    Ev.failedEv m ∈ l := by
  unfold getExactVersionM at h
  cases hms : maxSatisfying (validVersions rs)
      (if ver = "latest" then "*" else ver) with
  | some v => rw [hms] at h; simp at h
  | none =>
    rw [hms] at h
    simp only [Prod.mk.injEq, Except.error.injEq, Failure.exited.injEq] at h
    rw [← h.1, h.2]
    exact List.mem_singleton.mpr rfl

theorem resolveStep_exited_failed {env : Env} {l₁ : List Ev} {m : String}
    (h : resolveStep env = (l₁, .error (.exited m))) :
    Ev.failedEv m ∈ l₁ := by
  cases hb : (decide (env.token ≠ "")) with
  | true =>
    have h' : listReleasesM env (env.token ≠ "") "typst-community"
        "utpm" = ([], .ok env.authPages.flatten) := by
      rw [hb]
      exact listReleasesM_auth env "typst-community" "utpm"
    rcases hG : getExactVersionM env.authPages.flatten
      (if env.versionIn = "" then "latest" else env.versionIn)
      with ⟨l₂, ve⟩
    rw [resolveStep_of_list_ok h' hG] at h
    simp only [Prod.mk.injEq, List.nil_append] at h
    rw [← h.1]
    exact getExact_exited (by rw [hG, h.2])
  | false =>
    cases hF : env.unauthFetch with
    | error mm =>
      have h' : listReleasesM env (env.token ≠ "") "typst-community"
          "utpm" = ([Ev.fetchEv (releasesUrl "typst-community" "utpm")],
            .error (.thrown mm)) := by
        rw [hb]
        exact listReleasesM_fetch_err "typst-community" "utpm" hF
      rw [resolveStep_of_list_err h'] at h
      simp at h
    | ok p =>
      cases hP : env.unauthParse p with
      | error e =>
        have h' : listReleasesM env (env.token ≠ "") "typst-community"
            "utpm" = ([Ev.fetchEv (releasesUrl "typst-community" "utpm"),
              Ev.failedEv (rateLimitMsg "typst-community" "utpm" e)],
              .error (.exited (rateLimitMsg "typst-community" "utpm" e))) := by
          rw [hb]
          exact listReleasesM_parse_err "typst-community" "utpm" hF hP
        rw [resolveStep_of_list_err h'] at h
        simp only [Prod.mk.injEq, Except.error.injEq,
          Failure.exited.injEq] at h
        rw [← h.1, h.2]
        simp
      | ok rs =>
        have h' : listReleasesM env (env.token ≠ "") "typst-community"
            "utpm" = ([Ev.fetchEv (releasesUrl "typst-community" "utpm")],
              .ok rs) := by
          rw [hb]
          exact listReleasesM_parse_ok "typst-community" "utpm" hF hP
        rcases hG : getExactVersionM rs
          (if env.versionIn = "" then "latest" else env.versionIn)
          with ⟨l₂, ve⟩
        rw [resolveStep_of_list_ok h' hG] at h
        simp only [Prod.mk.injEq] at h
        rw [← h.1]
        exact List.mem_append.mpr (.inr (getExact_exited (by rw [hG, h.2])))

theorem dl_exited_failed {env : Env} {v : String} {l : List Ev}
    {m : String}
    (h : downloadAndCacheUtpmM env v = (l, .error (.exited m))) :
    Ev.failedEv m ∈ l := by
  cases hPT : targetsLookup (env.platform ++ "," ++ env.arch) with
  | none =>
    rw [dl_unsupported v hPT] at h
    simp only [Prod.mk.injEq, Except.error.injEq, Failure.exited.injEq] at h
    rw [← h.1, h.2]
    simp
  | some pts =>
    rcases htc : tryCandidates env v (archiveExtOf env) pts none
      with ⟨log, dopt, topt⟩
    cases topt with
    | none =>
      rw [dl_noTarget hPT htc] at h
      simp only [Prod.mk.injEq, Except.error.injEq, Failure.exited.injEq] at h
      rw [← h.1, h.2]
      simp
    | some tg =>
      cases dopt with
      | none =>
        rw [dl_noTarget2 hPT htc] at h
        simp only [Prod.mk.injEq, Except.error.injEq,
          Failure.exited.injEq] at h
        rw [← h.1, h.2]
        simp
      | some dl =>
        cases hex : extractArchive env dl with
        | error mm =>
          rw [dl_extract_err hPT htc hex] at h
          simp at h
        | ok ex =>
          cases hbin : env.fileExists (ex ++ "/" ++ binaryNameOf env) with
          | false =>
            rw [dl_binMissing hPT htc hex hbin] at h
            simp only [Prod.mk.injEq, Except.error.injEq,
              Failure.exited.injEq] at h
            rw [← h.1, h.2]
            simp
          | true =>
            rw [dl_ok hPT htc hex hbin] at h
            simp at h

/-- C3 counterexample: a run on an unsupported platform fails after the
cache lookup, so the failing run has already published the `cache-hit`
output, contradicting the claim that a failing run publishes no output. -/
theorem claim_C3_counterexample :
    (runM { baseEnv with platform := "plan9" }).2 = true ∧
      Ev.outputEv "cache-hit" "false" ∈
        (runM { baseEnv with platform := "plan9" }).1 := by
  have h : runM { baseEnv with platform := "plan9" } =
      ([Ev.fetchEv (releasesUrl "typst-community" "utpm"),
        Ev.outputEv "cache-hit" "false",
        Ev.failedEv (unsupportedMsg "plan9" "x64")], true) := rfl
  rw [h]
  exact ⟨rfl, by simp⟩

/-- C3 amended: every failing run reports a failure reason and never
publishes the `version` output; however, a failure that occurs after the
cache lookup (platform mapping, acquisition, extraction, verification)
happens after `cache-hit` has already been published, so only `version` is
guaranteed unpublished. -/
theorem claim_C3_failing_run (env : Env) (h : (runM env).2 = true) :
    (∀ s, Ev.outputEv "version" s ∉ (runM env).1) ∧
      ∃ m, Ev.failedEv m ∈ (runM env).1 := by
  rcases runM_cases env with ⟨l₁, f, hR, hrun⟩ |
      ⟨l₁, r, hR, ⟨hf, hrun⟩ | ⟨hf, ⟨l₃, f, hd, hrun⟩ | ⟨l₃, p, hd, hrun⟩⟩⟩
  · rw [hrun]
    constructor
    · intro s hs
      rcases List.mem_append.mp hs with hs | hs
      · rcases mem_resolveStep_log (show Ev.outputEv "version" s ∈
          (resolveStep env).1 by rw [hR]; exact hs) with ⟨u, hu⟩ | ⟨mm, hm⟩
        · cases hu
        · cases hm
      · cases f with
        | exited mm => cases hs
        | thrown mm => simp [catchLog] at hs
    · cases f with
      | exited mm =>
        exact ⟨mm, List.mem_append.mpr (.inl (resolveStep_exited_failed hR))⟩
      | thrown mm =>
        exact ⟨"Action failed: " ++ mm,
          List.mem_append.mpr (.inr (by simp [catchLog]))⟩
  · rw [hrun] at h
    cases h
  · rw [hrun]
    constructor
    · intro s hs
      rcases List.mem_append.mp hs with hs | hs
      · rcases List.mem_append.mp hs with hs | hs
        · rcases mem_resolveStep_log (show Ev.outputEv "version" s ∈
            (resolveStep env).1 by rw [hR]; exact hs) with ⟨u, hu⟩ | ⟨mm, hm⟩
          · cases hu
          · cases hm
        · rcases List.mem_cons.mp hs with hs | hs
          · simp at hs
          · rcases mem_dl_log (show Ev.outputEv "version" s ∈
              (downloadAndCacheUtpmM env r).1 by rw [hd]; exact hs)
              with ⟨u, hu⟩ | ⟨mm, hm⟩ | ⟨d', hd', _⟩
            · cases hu
            · cases hm
            · cases hd'
      · cases f with
        | exited mm => cases hs
        | thrown mm => simp [catchLog] at hs
    · cases f with
      | exited mm =>
        refine ⟨mm, List.mem_append.mpr (.inl ?_)⟩
        exact List.mem_append.mpr (.inr (List.mem_cons.mpr
          (.inr (dl_exited_failed (by rw [hd])))))
      | thrown mm =>
        refine ⟨"Action failed: " ++ mm, List.mem_append.mpr (.inr ?_)⟩
        simp [catchLog]
  · rw [hrun] at h
    cases h

/-- Witness for the amended C3 at a concrete input: the failing
unsupported-platform run reports a failure reason. -/
theorem claim_C3_failing_run_witness :
    ∃ m, Ev.failedEv m ∈ (runM { baseEnv with platform := "plan9" }).1 :=
  (claim_C3_failing_run { baseEnv with platform := "plan9" } rfl).2

/-- C6: a tool-cache entry is registered only under the fixed tool name
`utpm` and only after the expected binary filename (`utpm.exe` on win32,
`utpm` otherwise) has been verified to exist at the top of the extraction
output; and when the binary is absent the acquirer fails fatally with the
binary-missing diagnostic and no registration occurs. A registration in a
run moreover implies the run succeeded and published that version. -/
theorem claim_C6_registration_invariant (env : Env) :
    (∀ t ver d, Ev.cacheRegEv t ver d ∈ (runM env).1 →
      t = "utpm" ∧ env.fileExists (d ++ "/" ++ binaryNameOf env) = true ∧
        Ev.outputEv "version" ver ∈ (runM env).1 ∧ (runM env).2 = false) ∧
    (∀ (v : String) (pts : List String) (log : List Ev) (dl tg ex : String),
      targetsLookup (env.platform ++ "," ++ env.arch) = some pts →
      tryCandidates env v (archiveExtOf env) pts none =
        (log, some dl, some tg) →
      extractArchive env dl = .ok ex →
      env.fileExists (ex ++ "/" ++ binaryNameOf env) = false →
      (downloadAndCacheUtpmM env v).2 =
        .error (.exited (binMissingMsg (ex ++ "/" ++ binaryNameOf env))) ∧
      ∀ t ver d, Ev.cacheRegEv t ver d ∉ (downloadAndCacheUtpmM env v).1) := by
  constructor
  · intro t ver d hmem
    rcases runM_cases env with ⟨l₁, f, hR, hrun⟩ |
        ⟨l₁, r, hR, ⟨hf, hrun⟩ | ⟨hf, ⟨l₃, f, hd, hrun⟩ | ⟨l₃, p, hd, hrun⟩⟩⟩
    · rw [hrun] at hmem
      rcases List.mem_append.mp hmem with hs | hs
      · rcases mem_resolveStep_log (show Ev.cacheRegEv t ver d ∈
          (resolveStep env).1 by rw [hR]; exact hs) with ⟨u, hu⟩ | ⟨mm, hm⟩
        · cases hu
        · cases hm
      · cases f with
        | exited mm => cases hs
        | thrown mm => simp [catchLog] at hs
    · rw [hrun] at hmem
      rcases List.mem_append.mp hmem with hs | hs
      · rcases mem_resolveStep_log (show Ev.cacheRegEv t ver d ∈
          (resolveStep env).1 by rw [hR]; exact hs) with ⟨u, hu⟩ | ⟨mm, hm⟩
        · cases hu
        · cases hm
      · simp at hs
    · rw [hrun] at hmem
      rcases List.mem_append.mp hmem with hs | hs
      · rcases List.mem_append.mp hs with hs | hs
        · rcases mem_resolveStep_log (show Ev.cacheRegEv t ver d ∈
            (resolveStep env).1 by rw [hR]; exact hs) with ⟨u, hu⟩ | ⟨mm, hm⟩
          · cases hu
          · cases hm
        · rcases List.mem_cons.mp hs with hs | hs
          · cases hs
          · exact absurd (show Ev.cacheRegEv t ver d ∈
              (downloadAndCacheUtpmM env r).1 by rw [hd]; exact hs)
              (dl_err_no_reg (by rw [hd]) t ver d)
      · cases f with
        | exited mm => cases hs
        | thrown mm => simp [catchLog] at hs
    · rw [hrun] at hmem
      rcases List.mem_append.mp hmem with hs | hs
      · rcases List.mem_append.mp hs with hs | hs
        · rcases mem_resolveStep_log (show Ev.cacheRegEv t ver d ∈
            (resolveStep env).1 by rw [hR]; exact hs) with ⟨u, hu⟩ | ⟨mm, hm⟩
          · cases hu
          · cases hm
        · rcases List.mem_cons.mp hs with hs | hs
          · cases hs
          · rcases mem_dl_log (show Ev.cacheRegEv t ver d ∈
              (downloadAndCacheUtpmM env r).1 by rw [hd]; exact hs)
              with ⟨u, hu⟩ | ⟨mm, hm⟩ | ⟨d', hd', hex⟩
            · cases hu
            · cases hm
            · injection hd' with h₁ h₂ h₃
              subst h₁
              subst h₂
              subst h₃
              refine ⟨rfl, hex, ?_, by rw [hrun]⟩
              rw [hrun]
              simp
      · simp at hs
  · intro v pts log dl tg ex hPT htc hex hbin
    have heq := dl_binMissing hPT htc hex hbin
    refine ⟨by rw [heq], ?_⟩
    exact dl_err_no_reg (by rw [heq])

/-- Witness for C6 at a concrete input: in an environment whose extraction
output lacks the binary, the acquirer fails with the binary-missing
diagnostic. -/
theorem claim_C6_registration_invariant_witness :
    (downloadAndCacheUtpmM noBinEnv "1.0.0").2 =
      .error (.exited (binMissingMsg
        ("extracted" ++ "/" ++ binaryNameOf noBinEnv))) :=
  ((claim_C6_registration_invariant noBinEnv).2 "1.0.0"
    ["x86_64-unknown-linux-musl", "x86_64-unknown-linux-gnu"]
    [Ev.downloadEv (assetUrl "1.0.0" "x86_64-unknown-linux-musl"
      (archiveExtOf noBinEnv))]
    "dl" "x86_64-unknown-linux-musl" "extracted" rfl rfl rfl rfl).1

theorem resolveStep_congr {env₁ env₂ : Env}
    (ht : env₁.token = env₂.token) (hv : env₁.versionIn = env₂.versionIn)
    (hp : env₁.authPages = env₂.authPages)
    (hf : env₁.unauthFetch = env₂.unauthFetch)
    (hup : env₁.unauthParse = env₂.unauthParse) :
    resolveStep env₁ = resolveStep env₂ := by
  simp only [resolveStep, listReleasesM, ht, hv, hp, hf, hup]

/-- C7: with the same configuration and listing behaviour, a first run
from an empty cache and a second run whose cache holds the resolved
version publish the same `version`; the second run publishes
`cache-hit = true`, succeeds, and performs no download; and in any run
that resolves a version, `cache-hit` is published as true exactly when the
tool cache already held that version before acquisition. -/
theorem claim_C7_cache_idempotence (env₁ env₂ : Env) (r : String)
    (ht : env₁.token = env₂.token) (hv : env₁.versionIn = env₂.versionIn)
    (hp : env₁.authPages = env₂.authPages)
    (hf : env₁.unauthFetch = env₂.unauthFetch)
    (hup : env₁.unauthParse = env₂.unauthParse)
    (hres : (resolveStep env₁).2 = .ok r)
    (h1 : ∀ s, env₁.cacheFind s = "")
    (hok : (runM env₁).2 = false)
    (h2 : env₂.cacheFind r ≠ "") :
    Ev.outputEv "version" r ∈ (runM env₁).1 ∧
    Ev.outputEv "version" r ∈ (runM env₂).1 ∧
    Ev.outputEv "cache-hit" "true" ∈ (runM env₂).1 ∧
    (∀ u, Ev.downloadEv u ∉ (runM env₂).1) ∧
    (runM env₂).2 = false ∧
    (∀ (env : Env) (r' : String), (resolveStep env).2 = .ok r' →
      (Ev.outputEv "cache-hit" "true" ∈ (runM env).1 ↔
        env.cacheFind r' ≠ "")) := by
  rcases hRS : resolveStep env₁ with ⟨l₁, ve⟩
  rw [hRS] at hres
  simp only at hres
  subst hres
  have hR2 : resolveStep env₂ = (l₁, .ok r) := by
    rw [← resolveStep_congr ht hv hp hf hup, hRS]
  have hrun₂ := runM_hit hR2 h2
  have hmem₁ : Ev.outputEv "version" r ∈ (runM env₁).1 := by
    rcases hd : downloadAndCacheUtpmM env₁ r with ⟨l₃, ce⟩
    cases ce with
    | error f =>
      rw [runM_miss_err hRS (h1 r) hd] at hok
      cases hok
    | ok p =>
      rw [runM_miss_ok hRS (h1 r) hd]
      simp
  refine ⟨hmem₁, ?_, ?_, ?_, ?_, ?_⟩
  · rw [hrun₂]
    simp
  · rw [hrun₂]
    simp
  · intro u hu
    rw [hrun₂] at hu
    rcases List.mem_append.mp hu with hu | hu
    · rcases mem_resolveStep_log (show Ev.downloadEv u ∈
        (resolveStep env₂).1 by rw [hR2]; exact hu) with ⟨w, hw⟩ | ⟨mm, hm⟩
      · cases hw
      · cases hm
    · simp at hu
  · rw [hrun₂]
  · intro env r' hres'
    rcases hRS' : resolveStep env with ⟨l, ve⟩
    rw [hRS'] at hres'
    simp only at hres'
    subst hres'
    by_cases hfind : env.cacheFind r' = ""
    · constructor
      · intro hmem
        exfalso
        rcases hd : downloadAndCacheUtpmM env r' with ⟨l₃, ce⟩
        have hnol : Ev.outputEv "cache-hit" "true" ∉ l := by
          intro hs
          rcases mem_resolveStep_log (show Ev.outputEv "cache-hit" "true" ∈
            (resolveStep env).1 by rw [hRS']; exact hs)
            with ⟨w, hw⟩ | ⟨mm, hm⟩
          · cases hw
          · cases hm
        have hnol₃ : Ev.outputEv "cache-hit" "true" ∉ l₃ := by
          intro hs
          rcases mem_dl_log (show Ev.outputEv "cache-hit" "true" ∈
            (downloadAndCacheUtpmM env r').1 by rw [hd]; exact hs)
            with ⟨w, hw⟩ | ⟨mm, hm⟩ | ⟨d', hd', _⟩
          · cases hw
          · cases hm
          · cases hd'
        cases ce with
        | error f =>
          rw [runM_miss_err hRS' hfind hd] at hmem
          rcases List.mem_append.mp hmem with hs | hs
          · rcases List.mem_append.mp hs with hs | hs
            · exact hnol hs
            · rcases List.mem_cons.mp hs with hs | hs
              · simp at hs
              · exact hnol₃ hs
          · cases f with
            | exited mm => cases hs
            | thrown mm => simp [catchLog] at hs
        | ok p =>
          rw [runM_miss_ok hRS' hfind hd] at hmem
          rcases List.mem_append.mp hmem with hs | hs
          · rcases List.mem_append.mp hs with hs | hs
            · exact hnol hs
            · rcases List.mem_cons.mp hs with hs | hs
              · simp at hs
              · exact hnol₃ hs
          · simp at hs
      · intro hne
        exact absurd hfind hne
    · rw [runM_hit hRS' hfind]
      constructor
      · intro _
        exact hfind
      · intro _
        simp

/-- Witness for C7 at concrete inputs: a successful first run from the
empty cache and a second run with the cache populated publish the same
version, and the second run reports a cache hit. -/
theorem claim_C7_cache_idempotence_witness :
    Ev.outputEv "version" "1.0.0" ∈ (runM cachedEnv).1 ∧
      Ev.outputEv "cache-hit" "true" ∈ (runM cachedEnv).1 := by
  have h := claim_C7_cache_idempotence okEnv cachedEnv "1.0.0" rfl rfl rfl
    rfl rfl rfl (fun _ => rfl) rfl (by decide)
  exact ⟨h.2.1, h.2.2.1⟩

end SetupUtpm
